import Mathlib

/-!
Verification development for the World-Car routing engine.

The definitions below are a shallow embedding of the Python sources:

* `src/src/algorithms/dijkstra.py`    (class DijkstraAlgorithm)
* `src/src/algorithms/astar.py`       (class AStarAlgorithm)
* `src/src/algorithms/bellman_ford.py` (class BellmanFordAlgorithm)
* `src/worldcar/utils.py`             (haversine_distance, validate_coordinates)
* `src/worldcar/node_mapper.py`       (class NodeMapper)
* `src/worldcar/simple_path_service.py` (has_path)

Python floats are modelled as rationals (`ℚ`) where the code only performs
field arithmetic and comparisons, and as reals (`ℝ`) where trigonometry is
involved (the haversine formula).  The value `float("inf")` used as the
default for a missing "length" edge attribute is modelled by `⊤` in
`WithTop ℚ` (resp. `WithTop ℝ`).  Measured wall-clock durations are passed
in as an explicit parameter `τ`: the embedding returns `τ` exactly where the
Python code returns a measured `(end - start) * 1000`, and returns the
literal `0` where the code returns the literal `0`.
-/

namespace WorldCar

/-- A directed edge of the road multigraph: NetworkX edge `(src, dst)` with
an optional `length` attribute (absent attribute = `none`). -/
structure REdge where
  src : ℕ
  dst : ℕ
  length : Option ℚ
deriving DecidableEq, Repr

/-- The road network graph: a NetworkX `MultiDiGraph`.  `nodes` lists the
node ids in insertion order; `edges` lists all (parallel) directed edges in
insertion order; `x`/`y` give each node's longitude/latitude attributes. -/
structure RoadGraph where
  nodes : List ℕ
  edges : List REdge
  x : ℕ → ℚ
  y : ℕ → ℚ

/-- Well-formedness: every edge endpoint is a declared node (the NetworkX
`add_edge` API guarantees this by auto-inserting endpoints). -/
def WF (g : RoadGraph) : Prop :=
  ∀ e ∈ g.edges, e.src ∈ g.nodes ∧ e.dst ∈ g.nodes

instance (g : RoadGraph) : Decidable (WF g) := by
  unfold WF; infer_instance

/-- Keep the first occurrence of each element not in `seen`, drop later
duplicates. -/
def dedupFirstAux (seen : List ℕ) : List ℕ → List ℕ
  | [] => []
  | a :: l => if a ∈ seen then dedupFirstAux seen l else a :: dedupFirstAux (a :: seen) l

/-- Keep the first occurrence of each element, drop later duplicates
(the iteration order of a Python dict keyed by first insertion). -/
def dedupFirst (l : List ℕ) : List ℕ := dedupFirstAux [] l

/-- NetworkX `G.neighbors(u)` for a `MultiDiGraph`: the distinct successor
nodes of `u`, in order of first edge insertion. -/
def successors (g : RoadGraph) (u : ℕ) : List ℕ :=
  dedupFirst ((g.edges.filter (fun e => e.src = u)).map (·.dst))

/-- NetworkX `G[u][v]`: the `length` attributes of the parallel edges from
`u` to `v`, in key order (key order = insertion order). -/
def parallelLengths (g : RoadGraph) (u v : ℕ) : List (Option ℚ) :=
  (g.edges.filter (fun e => e.src = u ∧ e.dst = v)).map (·.length)

/-- Python `data.get("length", float("inf"))`. -/
def ew (o : Option ℚ) : WithTop ℚ :=
  o.elim ⊤ (fun q => (q : WithTop ℚ))

/-- The minimum `length` among the parallel edges from `u` to `v`
(with `float("inf")` for an absent attribute), `⊤` if there is no edge.
This is the §3 multigraph weight-resolution invariant of the spec, and it
is what `calculate_path_length` / `compute_path_total_length` use. -/
def minParallelWeight (g : RoadGraph) (u v : ℕ) : WithTop ℚ :=
  ((parallelLengths g u v).map ew).foldr min ⊤

/-- Dijkstra's edge weight (dijkstra.py lines 44-46):
`edge_data = graph[current][neighbor][0]` takes the FIRST parallel edge
(key 0), then `edge_data.get("length", float("inf"))`. -/
def dijkstraWeight (g : RoadGraph) (u v : ℕ) : WithTop ℚ :=
  match parallelLengths g u v with
  | [] => ⊤
  | o :: _ => ew o

/-- A*'s edge weight (astar.py lines 84-89): with exactly one parallel edge
use `edges[0].get("length", 1.0)` (default 1.0), otherwise
`min(edge.get("length", float("inf")) for edge in edges.values())`.
The `[]` case cannot arise for a neighbor; we give it `⊤`. -/
def astarQWeight (g : RoadGraph) (u v : ℕ) : WithTop ℚ :=
  match parallelLengths g u v with
  | [] => ⊤
  | [o] => ((o.getD 1 : ℚ) : WithTop ℚ)
  | os => ((os.map ew).foldr min ⊤)

/-- Pointwise update of a total map, modelling a Python dict store. -/
def updF {α : Type} (f : ℕ → α) (k : ℕ) (v : α) : ℕ → α :=
  fun n => if n = k then v else f n

/-!  ### The `heapq` priority queue

Python's `heapq` on `(key, node)` tuples pops the least element in the
lexicographic order.  All tuples ever held in a heap during the runs below
are pairwise distinct (a node is re-pushed only with a strictly smaller
key), so the popped values are fully determined by "pop the minimum"; we
model the heap as a sorted list with stable insertion. -/

/-- Lexicographic order on `(key, node)` tuples, as Python compares them. -/
def pairLt {α : Type} [LinearOrder α] (a b : α × ℕ) : Prop :=
  a.1 < b.1 ∨ (a.1 = b.1 ∧ a.2 < b.2)

instance {α : Type} [LinearOrder α] (a b : α × ℕ) : Decidable (pairLt a b) := by
  unfold pairLt; infer_instance

/-- `heapq.heappush`: insert keeping the list sorted (stable). -/
def heapPush {α : Type} [LinearOrder α] (h : List (α × ℕ)) (x : α × ℕ) : List (α × ℕ) :=
  match h with
  | [] => [x]
  | y :: ys => if pairLt x y then x :: y :: ys else y :: heapPush ys x

/-- `heapq.heappop`: pop the least element; `none` on the empty heap. -/
def heapPop {α : Type} (h : List (α × ℕ)) : Option ((α × ℕ) × List (α × ℕ)) :=
  match h with
  | [] => none
  | x :: xs => some (x, xs)

/-!  ### Dijkstra (src/src/algorithms/dijkstra.py)

State of the while-loop: the priority queue `pq`, the distance dict `dist`
(`⊤` = key absent: every value ever stored is finite), the predecessor dict
`prev`, and the visited set (as a duplicate-free list, so that its length
is the visited count). -/

/-- One step of Dijkstra's neighbor loop, for neighbor `nb` of `cu` popped
with distance `cd`. -/
def dijkstraRelax (g : RoadGraph) (cu : ℕ) (cd : WithTop ℚ) (visited : List ℕ)
    (st : (ℕ → WithTop ℚ) × (ℕ → Option ℕ) × List (WithTop ℚ × ℕ)) (nb : ℕ) :
    (ℕ → WithTop ℚ) × (ℕ → Option ℕ) × List (WithTop ℚ × ℕ) :=
  if nb ∈ visited then st
  else
    if cd + dijkstraWeight g cu nb < st.1 nb then
      (updF st.1 nb (cd + dijkstraWeight g cu nb), updF st.2.1 nb (some cu),
        heapPush st.2.2 (cd + dijkstraWeight g cu nb, nb))
    else st

/-- Dijkstra's main while-loop, fuel-indexed (`none` = fuel exhausted;
`g.edges.length + 2` units always suffice in practice since every iteration
pops one element and at most `1 + |edges|` elements are ever pushed). -/
def dijkstraLoop (g : RoadGraph) (t : ℕ) :
    ℕ → List (WithTop ℚ × ℕ) → (ℕ → WithTop ℚ) → (ℕ → Option ℕ) → List ℕ →
    Option ((ℕ → WithTop ℚ) × (ℕ → Option ℕ) × List ℕ)
  | 0, _, _, _, _ => none
  | Nat.succ fuel, pq, dist, prev, visited =>
    match heapPop pq with
    | none => some (dist, prev, visited)
    | some ((cd, cu), rest) =>
      if cu ∈ visited then dijkstraLoop g t fuel rest dist prev visited
      else if cu = t then some (dist, prev, cu :: visited)
      else
        let st := (successors g cu).foldl (dijkstraRelax g cu cd (cu :: visited))
          (dist, prev, rest)
        dijkstraLoop g t fuel st.2.2 st.1 st.2.1 (cu :: visited)

/-- Path reconstruction (dijkstra.py lines 60-66): walk `prev` from the
target back to the source, then reverse.  Fuel-indexed; `none` models a
`KeyError`/divergence of the predecessor chain. -/
def dijkstraRecon (s : ℕ) (prev : ℕ → Option ℕ) :
    ℕ → ℕ → List ℕ → Option (List ℕ)
  | 0, _, _ => none
  | Nat.succ fuel, node, acc =>
    if node = s then some (node :: acc)
    else
      match prev node with
      | none => none
      | some p => dijkstraRecon s prev fuel p (node :: acc)

/-- `DijkstraAlgorithm.run(graph, source, target)` (without the
`measure_performance` decorator): returns `(path, distance, visited_count)`. -/
def dijkstraRun (g : RoadGraph) (s t : ℕ) : Option (List ℕ × WithTop ℚ × ℕ) :=
  if s = t then some ([s], 0, 1)
  else
    match dijkstraLoop g t (g.edges.length + 2) [((0 : WithTop ℚ), s)]
        (updF (fun _ => (⊤ : WithTop ℚ)) s 0) (fun _ => none) [] with
    | none => none
    | some (dist, prev, visited) =>
      if dist t = ⊤ then some ([], ⊤, visited.length)
      else
        (dijkstraRecon s prev (g.nodes.length + 2) t []).map
          (fun p => (p, dist t, visited.length))

/-- The `measure_performance` decorator (src/src/utils/performance.py)
appends the measured elapsed milliseconds to the result tuple; the measured
duration is the parameter `τ`. -/
def dijkstraRunTimed (g : RoadGraph) (s t : ℕ) (τ : ℚ) :
    Option (List ℕ × WithTop ℚ × ℕ × ℚ) :=
  (dijkstraRun g s t).map (fun r => (r.1, r.2.1, r.2.2, τ))

/-!  ### Bellman-Ford (src/src/algorithms/bellman_ford.py) -/

/-- The distance/predecessor state of Bellman-Ford. -/
structure BFState where
  d : ℕ → WithTop ℚ
  p : ℕ → Option ℕ

/-- Relaxation of a single edge inside a pass; the Bool records whether
this pass has performed any update so far (`updated`). -/
def bfRelax (st : BFState × Bool) (e : REdge) : BFState × Bool :=
  if st.1.d e.src + ew e.length < st.1.d e.dst then
    (⟨updF st.1.d e.dst (st.1.d e.src + ew e.length),
      updF st.1.p e.dst (some e.src)⟩, true)
  else st

/-- One full pass over all edges (`for u, v, data in graph.edges(data=True)`). -/
def bfPass (edges : List REdge) (st : BFState) : BFState × Bool :=
  edges.foldl bfRelax (st, false)

/-- The relaxation rounds (`for _ in range(len(nodes) - 1)`), with the early
break when a round performs no update.  Returns the final state and the
number of rounds actually executed (`visited_nodes`). -/
def bfRounds (edges : List REdge) : ℕ → BFState → BFState × ℕ
  | 0, st => (st, 0)
  | Nat.succ k, st =>
    let r := bfPass edges st
    if r.2 then
      let z := bfRounds edges k r.1
      (z.1, z.2 + 1)
    else (r.1, 1)

/-- The final negative-cycle check (bellman_ford.py lines 28-31): does some
edge still relax against the final distances?  (This check reads but never
writes `distance`.) -/
def bfCheck (edges : List REdge) (st : BFState) : Bool :=
  edges.any (fun e => decide (st.d e.src + ew e.length < st.d e.dst))

/-- Path reconstruction (bellman_ford.py lines 36-41): follow `previous`
from the target until a `None`, then reverse.  Fuel-indexed. -/
def bfRecon (p : ℕ → Option ℕ) : ℕ → ℕ → List ℕ → Option (List ℕ)
  | 0, _, _ => none
  | Nat.succ fuel, node, acc =>
    match p node with
    | none => some (node :: acc)
    | some q => bfRecon p fuel q (node :: acc)

/-- Result of a Bellman-Ford run: the `ValueError` raise, a returned tuple
`(path, distance, visited_nodes, time_ms)`, or a diverging predecessor
chain (`stuck`, which cannot occur after the cycle check passes). -/
inductive BFResult where
  | negativeCycleError : BFResult
  | ok : List ℕ → WithTop ℚ → ℕ → ℚ → BFResult
  | stuck : BFResult
deriving DecidableEq, Repr

/-- The initial Bellman-Ford state: `distance = {node: inf}` then
`distance[source] = 0`; `previous = {node: None}`. -/
def bfInit (s : ℕ) : BFState :=
  ⟨updF (fun _ => (⊤ : WithTop ℚ)) s 0, fun _ => none⟩

/-- `BellmanFordAlgorithm.run(graph, source, target)`.  `τ` is the measured
elapsed time `(time.perf_counter() - start_time) * 1000`; note that the
no-path branch (line 34) returns the literal `0` instead of `τ`. -/
def bellmanFordRun (g : RoadGraph) (s t : ℕ) (τ : ℚ) : BFResult :=
  let z := bfRounds g.edges (g.nodes.length - 1) (bfInit s)
  if bfCheck g.edges z.1 then BFResult.negativeCycleError
  else if z.1.d t = ⊤ then BFResult.ok [] ⊤ z.2 0
  else
    match bfRecon z.1.p (g.nodes.length + 2) t [] with
    | none => BFResult.stuck
    | some path => BFResult.ok path (z.1.d t) z.2 τ

/-!  ### Concrete graphs used as witnesses and counterexamples -/

/-- Two nodes, two parallel edges 1→2 of lengths 10 (first) and 5. -/
def gPar : RoadGraph :=
  ⟨[1, 2], [⟨1, 2, some 10⟩, ⟨1, 2, some 5⟩], fun _ => 0, fun _ => 0⟩

/-- A single node 7 with no edges. -/
def gOne : RoadGraph := ⟨[7], [], fun _ => 0, fun _ => 0⟩

/-- Two isolated nodes 1 and 2 (no edges at all). -/
def gTwo : RoadGraph := ⟨[1, 2], [], fun _ => 0, fun _ => 0⟩

/-- A 3-node graph with a negative cycle 2→3→2 reachable from node 1:
edges 1→2 (length 1), 2→3 (length 1), 3→2 (length -5). -/
def gNeg : RoadGraph :=
  ⟨[1, 2, 3], [⟨1, 2, some 1⟩, ⟨2, 3, some 1⟩, ⟨3, 2, some (-5)⟩],
    fun _ => 0, fun _ => 0⟩

end WorldCar

namespace WorldCar

/-- Walks: `IsWalk g a es b` says the edge list `es` is a directed walk
from `a` to `b` using edges of `g`. -/
def IsWalk (g : RoadGraph) : ℕ → List REdge → ℕ → Prop
  | a, [], b => a = b
  | a, e :: es, b => e ∈ g.edges ∧ e.src = a ∧ IsWalk g e.dst es b

/-- Total weight of a walk, with `float("inf")` for absent lengths. -/
def walkWeight (es : List REdge) : WithTop ℚ :=
  (es.map (fun e => ew e.length)).sum

/-- Reachability along walks. -/
def ReachableW (g : RoadGraph) (a b : ℕ) : Prop :=
  ∃ es, IsWalk g a es b

/-- A negative-weight cycle reachable from `s`: a finite-weight walk from
`s` to some node `c` together with a nonempty closed walk at `c` of total
weight `< 0`. -/
def NegCycleReachable (g : RoadGraph) (s : ℕ) : Prop :=
  ∃ c es₁ es₂, IsWalk g s es₁ c ∧ walkWeight es₁ ≠ ⊤ ∧
    es₂ ≠ [] ∧ IsWalk g c es₂ c ∧ walkWeight es₂ < 0

/-!  ### Real-valued trigonometry: haversine and the A* heuristic -/

/-- Python `math.radians`. -/
noncomputable def radiansR (d : ℝ) : ℝ := d * Real.pi / 180

/-- Python `math.atan2(y, x)` (C `atan2` semantics; signed zeros are not
representable in `ℝ`, so `atan2(±0, -0)` collapses to the `x = 0` case). -/
noncomputable def atan2R (y x : ℝ) : ℝ :=
  if 0 < x then Real.arctan (y / x)
  else if x < 0 then
    (if 0 ≤ y then Real.arctan (y / x) + Real.pi else Real.arctan (y / x) - Real.pi)
  else if 0 < y then Real.pi / 2
  else if y < 0 then -(Real.pi / 2)
  else 0

/-- `haversine_distance` from src/worldcar/utils.py (lines 28-69):
great-circle distance in meters, Earth radius 6371000 m. -/
noncomputable def haversine_distance (lat1 lon1 lat2 lon2 : ℝ) : ℝ :=
  let R : ℝ := 6371000
  let lat1R := radiansR lat1
  let lat2R := radiansR lat2
  let deltaLat := radiansR (lat2 - lat1)
  let deltaLon := radiansR (lon2 - lon1)
  let a := Real.sin (deltaLat / 2) ^ 2 +
    Real.cos lat1R * Real.cos lat2R * Real.sin (deltaLon / 2) ^ 2
  let c := 2 * atan2R (Real.sqrt a) (Real.sqrt (1 - a))
  R * c

/-- `AStarAlgorithm.heuristic` from src/src/algorithms/astar.py (lines
25-40).  `pos[n] = (G.nodes[n]["x"], G.nodes[n]["y"]) = (lon, lat)`. -/
noncomputable def heuristicR (g : RoadGraph) (a b : ℕ) : ℝ :=
  let lon1 := ((g.x a : ℚ) : ℝ)
  let lat1 := ((g.y a : ℚ) : ℝ)
  let lon2 := ((g.x b : ℚ) : ℝ)
  let lat2 := ((g.y b : ℚ) : ℝ)
  let R : ℝ := 6371000
  let phi1 := radiansR lat1
  let phi2 := radiansR lat2
  let dphi := radiansR (lat2 - lat1)
  let dlambda := radiansR (lon2 - lon1)
  let h := Real.sin (dphi / 2) ^ 2 +
    Real.cos phi1 * Real.cos phi2 * Real.sin (dlambda / 2) ^ 2
  2 * R * atan2R (Real.sqrt h) (Real.sqrt (1 - h))

/-!  ### A* (src/src/algorithms/astar.py)

The g- and f-scores are Python floats, modelled in `WithTop ℝ` (the
initialization is `{node: float("inf")}`).  `τ` is the measured elapsed
time in ms. -/

/-- A*'s edge weight cast to `WithTop ℝ` (weights enter real arithmetic). -/
noncomputable def astarWeight (g : RoadGraph) (u v : ℕ) : WithTop ℝ :=
  WithTop.map (fun (q : ℚ) => (q : ℝ)) (astarQWeight g u v)

/-- One step of `run`'s neighbor loop (astar.py lines 83-102).  Note there
is NO `if neighbor in visited: continue` guard in `run`. -/
noncomputable def astarRelax (g : RoadGraph) (ε : ℝ) (t cu : ℕ)
    (st : (ℕ → WithTop ℝ) × (ℕ → Option ℕ) × List (WithTop ℝ × ℕ)) (nb : ℕ) :
    (ℕ → WithTop ℝ) × (ℕ → Option ℕ) × List (WithTop ℝ × ℕ) :=
  if st.1 cu + astarWeight g cu nb < st.1 nb then
    (updF st.1 nb (st.1 cu + astarWeight g cu nb), updF st.2.1 nb (some cu),
      heapPush st.2.2
        (st.1 cu + astarWeight g cu nb + ((ε * heuristicR g nb t : ℝ) : WithTop ℝ), nb))
  else st

/-- `run`'s main while-loop, fuel-indexed. -/
noncomputable def astarLoop (g : RoadGraph) (ε : ℝ) (t : ℕ) :
    ℕ → List (WithTop ℝ × ℕ) → (ℕ → WithTop ℝ) → (ℕ → Option ℕ) → List ℕ →
    Option ((ℕ → WithTop ℝ) × (ℕ → Option ℕ) × List ℕ)
  | 0, _, _, _, _ => none
  | Nat.succ fuel, os, gsc, prev, visited =>
    match heapPop os with
    | none => some (gsc, prev, visited)
    | some ((_, cu), rest) =>
      if cu ∈ visited then astarLoop g ε t fuel rest gsc prev visited
      else if cu = t then some (gsc, prev, cu :: visited)
      else
        let st := (successors g cu).foldl (astarRelax g ε t cu) (gsc, prev, rest)
        astarLoop g ε t fuel st.2.2 st.1 st.2.1 (cu :: visited)

/-- A*'s path reconstruction (astar.py lines 110-113, likewise 297-300:
the two modes share this verbatim loop). -/
def astarRecon (s : ℕ) (prev : ℕ → Option ℕ) :
    ℕ → ℕ → List ℕ → Option (List ℕ)
  | 0, _, _ => none
  | Nat.succ fuel, node, acc =>
    if node = s then some (node :: acc)
    else
      match prev node with
      | none => none
      | some p => astarRecon s prev fuel p (node :: acc)

/-- `AStarAlgorithm.run(G, source, target)` with `heuristic_weight = ε`:
returns `(path, distance, visited_count, time_ms)`.  The same-node branch
returns the literal time `0.0`. -/
noncomputable def astarRun (g : RoadGraph) (ε : ℝ) (s t : ℕ) (τ : ℝ) :
    Option (List ℕ × WithTop ℝ × ℕ × ℝ) :=
  if s = t then some ([s], 0, 1, 0)
  else
    match astarLoop g ε t (g.edges.length + 2) [((0 : WithTop ℝ), s)]
        (updF (fun _ => (⊤ : WithTop ℝ)) s 0) (fun _ => none) [] with
    | none => none
    | some (gsc, prev, visited) =>
      if (prev t).isNone then some ([], ⊤, visited.length, τ)
      else
        (astarRecon s prev (g.nodes.length + 2) t []).map
          (fun p => (p, gsc t, visited.length, τ))

/-- One step of `run_animated`'s neighbor loop (astar.py lines 255-278).
Unlike `run`, it DOES begin with `if neighbor in visited: continue`, and it
additionally maintains `f_score_map` (third state component). -/
noncomputable def astarRelaxAnim (g : RoadGraph) (ε : ℝ) (t cu : ℕ) (visited : List ℕ)
    (st : (ℕ → WithTop ℝ) × (ℕ → Option ℕ) × (ℕ → WithTop ℝ) × List (WithTop ℝ × ℕ))
    (nb : ℕ) :
    (ℕ → WithTop ℝ) × (ℕ → Option ℕ) × (ℕ → WithTop ℝ) × List (WithTop ℝ × ℕ) :=
  if nb ∈ visited then st
  else
    if st.1 cu + astarWeight g cu nb < st.1 nb then
      (updF st.1 nb (st.1 cu + astarWeight g cu nb), updF st.2.1 nb (some cu),
        updF st.2.2.1 nb
          (st.1 cu + astarWeight g cu nb + ((ε * heuristicR g nb t : ℝ) : WithTop ℝ)),
        heapPush st.2.2.2
          (st.1 cu + astarWeight g cu nb + ((ε * heuristicR g nb t : ℝ) : WithTop ℝ), nb))
    else st

/-- `run_animated`'s main loop (astar.py lines 208-278).  The yielded
snapshot dictionaries are pure observations built from copies of the state;
they do not influence the state evolution or the generator's return value,
so they are not materialized here. -/
noncomputable def astarLoopAnim (g : RoadGraph) (ε : ℝ) (t : ℕ) :
    ℕ → List (WithTop ℝ × ℕ) → (ℕ → WithTop ℝ) → (ℕ → Option ℕ) →
    (ℕ → WithTop ℝ) → List ℕ →
    Option ((ℕ → WithTop ℝ) × (ℕ → Option ℕ) × List ℕ)
  | 0, _, _, _, _, _ => none
  | Nat.succ fuel, os, gsc, prev, fsc, visited =>
    match heapPop os with
    | none => some (gsc, prev, visited)
    | some ((_, cu), rest) =>
      if cu ∈ visited then astarLoopAnim g ε t fuel rest gsc prev fsc visited
      else if cu = t then some (gsc, prev, cu :: visited)
      else
        let st := (successors g cu).foldl (astarRelaxAnim g ε t cu (cu :: visited))
          (gsc, prev, fsc, rest)
        astarLoopAnim g ε t fuel st.2.2.2 st.1 st.2.1 st.2.2.1 (cu :: visited)

/-- `AStarAlgorithm.run_animated(G, source, target)`, driven to completion:
the generator's final return value `(path, distance, visited_count,
time_ms)` (astar.py lines 127-321). -/
noncomputable def astarRunAnimated (g : RoadGraph) (ε : ℝ) (s t : ℕ) (τ : ℝ) :
    Option (List ℕ × WithTop ℝ × ℕ × ℝ) :=
  if s = t then some ([s], 0, 1, 0)
  else
    match astarLoopAnim g ε t (g.edges.length + 2) [((0 : WithTop ℝ), s)]
        (updF (fun _ => (⊤ : WithTop ℝ)) s 0) (fun _ => none)
        (updF (fun _ => (⊤ : WithTop ℝ)) s 0) [] with
    | none => none
    | some (gsc, prev, visited) =>
      if (prev t).isNone then some ([], ⊤, visited.length, τ)
      else
        (astarRecon s prev (g.nodes.length + 2) t []).map
          (fun p => (p, gsc t, visited.length, τ))

/-!  ### NodeMapper (src/worldcar/node_mapper.py)

Config (src/worldcar/config.py): `KDTREE_ENABLED = True`,
`MAX_SEARCH_RADIUS_METERS = 500`, latitude range [-90, 90], longitude
range [-180, 180]. -/

/-- `validate_coordinates` from src/worldcar/utils.py (lines 94-126).
`NaN`/`inf` are not representable in `ℚ`, so those two checks are
identically false here; the range checks are translated as written. -/
def validate_coordinates (lat lon : ℚ) : Bool :=
  decide ((-90 : ℚ) ≤ lat ∧ lat ≤ 90 ∧ (-180 : ℚ) ≤ lon ∧ lon ≤ 180)

/-- `NodeMapper._build_spatial_index`: `node_coords` holds `[lat, lon] =
[data["y"], data["x"]]` per node in graph-node order. -/
def nodeCoords (g : RoadGraph) : List (ℚ × ℚ) :=
  g.nodes.map (fun n => (g.y n, g.x n))

/-- Squared planar distance in raw coordinate (degree) space — the metric
of the `scipy.spatial.KDTree` over `node_coords`. -/
def planarSq (p q : ℚ × ℚ) : ℚ :=
  (p.1 - q.1) ^ 2 + (p.2 - q.2) ^ 2

/-- Modelled from the library: `scipy.spatial.KDTree.query(point)` returns
the index of the stored point nearest to `point` in Euclidean coordinate
distance (first index on ties).  Accumulator-style first-argmin. -/
def argminAux (q : ℚ × ℚ) : List (ℚ × ℚ) → ℕ → ℕ → ℚ → ℕ
  | [], _, bi, _ => bi
  | c :: cs, i, bi, bd =>
    if planarSq q c < bd then argminAux q cs (i + 1) i (planarSq q c)
    else argminAux q cs (i + 1) bi bd

/-- Index of the planar-nearest stored coordinate (0 on the empty list,
which `NodeMapper.__init__` excludes). -/
def argminIdx (q : ℚ × ℚ) (cs : List (ℚ × ℚ)) : ℕ :=
  match cs with
  | [] => 0
  | c :: rest => argminAux q rest 1 0 (planarSq q c)

/-- `NodeMapper.find_nearest_node(lat, lon, max_distance)` (node_mapper.py
lines 123-189), with `KDTREE_ENABLED = True`: validate, query the KD-tree
(planar nearest), then accept/reject by the haversine distance of that
candidate.  Invalid coordinates return `None` (line 153) — the same value
as the no-match outcome (line 182). -/
noncomputable def findNearestNode (g : RoadGraph) (lat lon maxd : ℚ) : Option ℕ :=
  if validate_coordinates lat lon = false then none
  else
    match (nodeCoords g).get? (argminIdx (lat, lon) (nodeCoords g)),
        g.nodes.get? (argminIdx (lat, lon) (nodeCoords g)) with
    | some nc, some nid =>
      if haversine_distance (lat : ℝ) (lon : ℝ) ((nc.1 : ℚ) : ℝ) ((nc.2 : ℚ) : ℝ)
          > ((maxd : ℚ) : ℝ) then none
      else some nid
    | _, _ => none

/-- `NodeMapper.batch_find_nearest_nodes(coordinates, max_distance)`
(node_mapper.py lines 307-339): an independent `find_nearest_node` call
per entry, results appended in input order. -/
noncomputable def batchFindNearestNodes (g : RoadGraph) (coords : List (ℚ × ℚ))
    (maxd : ℚ) : List (Option ℕ) :=
  coords.map (fun c => findNearestNode g c.1 c.2 maxd)

/-!  ### has_path (src/worldcar/simple_path_service.py, lines 162-177) -/

/-- One BFS-style frontier expansion. -/
def reachStep (g : RoadGraph) (fr : List ℕ) : List ℕ :=
  dedupFirst (fr ++ fr.flatMap (successors g))

/-- Nodes reachable from `a` within `k` expansion rounds. -/
def reachSet (g : RoadGraph) (a : ℕ) : ℕ → List ℕ
  | 0 => [a]
  | Nat.succ k => reachStep g (reachSet g a k)

/-- Modelled from the library: `networkx.has_path(G, source, target)`
answers graph reachability and raises `NodeNotFound` when either endpoint
is missing; `has_path` wraps it in try/except returning `False` then.
`g.nodes.length` rounds of expansion saturate reachability. -/
def hasPath (g : RoadGraph) (a b : ℕ) : Bool :=
  decide (a ∈ g.nodes) && decide (b ∈ g.nodes) &&
    decide (b ∈ reachSet g a g.nodes.length)

/-- Four nodes all at position (0, 0) — so the A* heuristic is 0 — with a
negative-length edge 3→2: edges 1→2 (2), 1→3 (3), 2→4 (10), 3→2 (-2). -/
def gAst : RoadGraph :=
  ⟨[1, 2, 3, 4],
    [⟨1, 2, some 2⟩, ⟨1, 3, some 3⟩, ⟨2, 4, some 10⟩, ⟨3, 2, some (-2)⟩],
    fun _ => 0, fun _ => 0⟩

/-- A one-node mapper graph: node 1 at latitude 0, longitude 0. -/
def gMap : RoadGraph := ⟨[1], [], fun _ => 0, fun _ => 0⟩

/-- Two nodes for the planar-vs-haversine counterexample: node 1 at
(lat 79, lon 0), node 2 at (lat 80, lon 1.5).  Queried from (80, 0),
node 1 is planar-nearer (1 degree vs 1.5 degrees) but node 2 is
haversine-nearer (≈29 km vs ≈111 km at that latitude). -/
def gHL : RoadGraph :=
  ⟨[1, 2], [], fun n => if n = 1 then 0 else 3 / 2,
    fun n => if n = 1 then 79 else 80⟩

/-- A connected two-node graph 5 → 6 used as the has_path witness. -/
def gCon : RoadGraph := ⟨[5, 6], [⟨5, 6, some 4⟩], fun _ => 0, fun _ => 0⟩

/-- `k` full sequential relaxation passes (state component only). -/
def bfIter (edges : List REdge) : ℕ → BFState → BFState
  | 0, st => st
  | Nat.succ k, st => bfIter edges k (bfPass edges st).1

/-- The vertex sequence of a walk: start node followed by edge targets. -/
def walkVerts (a : ℕ) (es : List REdge) : List ℕ :=
  a :: es.map (·.dst)

end WorldCar

namespace WorldCar

/-!  ## Helper lemmas -/

theorem wtq_ofNat_lt_top (n : ℕ) [n.AtLeastTwo] :
    (no_index (OfNat.ofNat n) : WithTop ℚ) < ⊤ := by
  rw [← WithTop.coe_ofNat]; exact WithTop.coe_lt_top _

theorem wtq_ofNat_ne_top (n : ℕ) [n.AtLeastTwo] :
    (no_index (OfNat.ofNat n) : WithTop ℚ) ≠ ⊤ := by
  rw [← WithTop.coe_ofNat]; exact WithTop.coe_ne_top

theorem wtq_ofNat_lt_ofNat (n m : ℕ) [n.AtLeastTwo] [m.AtLeastTwo] :
    ((no_index (OfNat.ofNat n) : WithTop ℚ) < no_index (OfNat.ofNat m)) ↔
      ((OfNat.ofNat n : ℚ) < OfNat.ofNat m) := by
  rw [← WithTop.coe_ofNat, ← WithTop.coe_ofNat, WithTop.coe_lt_coe]

theorem wtq_ofNat_le_ofNat (n m : ℕ) [n.AtLeastTwo] [m.AtLeastTwo] :
    ((no_index (OfNat.ofNat n) : WithTop ℚ) ≤ no_index (OfNat.ofNat m)) ↔
      ((OfNat.ofNat n : ℚ) ≤ OfNat.ofNat m) := by
  rw [← WithTop.coe_ofNat, ← WithTop.coe_ofNat, WithTop.coe_le_coe]

theorem findNearestNode_of_invalid (g : RoadGraph) (lat lon maxd : ℚ)
    (h : validate_coordinates lat lon = false) :
    findNearestNode g lat lon maxd = none := by
  simp [findNearestNode, h]

theorem batch_get_eq (g : RoadGraph) (coords : List (ℚ × ℚ)) (maxd : ℚ) (i : ℕ) :
    (batchFindNearestNodes g coords maxd).get? i =
      (coords.get? i).map (fun c => findNearestNode g c.1 c.2 maxd) := by
  simp [batchFindNearestNodes]

/-!  ## Claim theorems -/

/-- C10: the A* heuristic and the shared utility `haversine_distance` are
numerically the same function on the same coordinate pairs (positions are
stored with x = longitude, y = latitude): both implement the haversine
great-circle formula with Earth radius 6371000 m. -/
theorem c10_heuristic_eq_haversine (g : RoadGraph) (a b : ℕ) :
    heuristicR g a b =
      haversine_distance ((g.y a : ℚ) : ℝ) ((g.x a : ℚ) : ℝ)
        ((g.y b : ℚ) : ℝ) ((g.x b : ℚ) : ℝ) := by
  simp only [heuristicR, haversine_distance]
  ring

/-- C1 counterexample: on two parallel edges 1→2 of lengths 10 (stored
first) and 5, Dijkstra traverses the FIRST stored edge and reports
distance 10, although the minimum parallel weight is 5 — so the claim
that every algorithm uses the minimum parallel weight is false. -/
theorem c1_counterexample :
    dijkstraRun gPar 1 2 = some ([1, 2], ((10 : ℚ) : WithTop ℚ), 2) ∧
      minParallelWeight gPar 1 2 = ((5 : ℚ) : WithTop ℚ) ∧
      ((10 : ℚ) : WithTop ℚ) ≠ ((5 : ℚ) : WithTop ℚ) := by
  norm_num [dijkstraRun, dijkstraLoop, dijkstraRelax, dijkstraRecon, heapPush,
    heapPop, pairLt, successors, dedupFirst, dedupFirstAux, dijkstraWeight,
    parallelLengths, ew, updF, gPar, minParallelWeight,
    wtq_ofNat_lt_top, wtq_ofNat_ne_top, wtq_ofNat_lt_ofNat, wtq_ofNat_le_ofNat]

/-- C1 amended: A* (hence also Weighted A*) resolves parallel edges by
minimum length (when every parallel edge carries a length attribute), but
Dijkstra uses the first stored parallel edge (NetworkX key 0);
Bellman-Ford relaxes every parallel edge individually. -/
theorem c1_amended (g : RoadGraph) (u v : ℕ)
    (hne : parallelLengths g u v ≠ [])
    (hall : ∀ o ∈ parallelLengths g u v, o ≠ none) :
    astarQWeight g u v = minParallelWeight g u v ∧
      dijkstraWeight g u v = ew (parallelLengths g u v).headI := by
  constructor
  · match h : parallelLengths g u v with
    | [] => exact absurd h hne
    | [o] =>
      have ho : o ≠ none := hall o (by simp [h])
      match o with
      | none => exact absurd rfl ho
      | some q => simp [astarQWeight, h, minParallelWeight, ew]
    | o₁ :: o₂ :: os => simp [astarQWeight, h, minParallelWeight]
  · match h : parallelLengths g u v with
    | [] => exact absurd h hne
    | o :: os => simp [dijkstraWeight, h]

/-- Witness for C1 amended at the parallel-edge graph. -/
theorem c1_amended_witness :
    (parallelLengths gPar 1 2 ≠ [] ∧ ∀ o ∈ parallelLengths gPar 1 2, o ≠ none) ∧
      astarQWeight gPar 1 2 = minParallelWeight gPar 1 2 ∧
      dijkstraWeight gPar 1 2 = ew (parallelLengths gPar 1 2).headI :=
  ⟨⟨by decide, by decide⟩, c1_amended gPar 1 2 (by decide) (by decide)⟩

/-- C2 counterexample: on a one-node graph, Bellman-Ford's `run(g, 7, 7)`
returns `nodes_visited = 0` (its round counter), not 1 as claimed. -/
theorem c2_counterexample :
    bellmanFordRun gOne 7 7 3 = BFResult.ok [7] 0 0 3 ∧ (0 : ℕ) ≠ 1 := by
  decide

/-- C3 counterexample: on two isolated nodes, Bellman-Ford's no-path
return carries the literal elapsed time 0 (bellman_ford.py line 34), not
the measured time 3 — and its visited count is the round count 1. -/
theorem c3_counterexample :
    bellmanFordRun gTwo 1 2 3 = BFResult.ok [] ⊤ 1 0 ∧ (0 : ℚ) ≠ 3 := by
  decide

/-- C4 counterexample: `NodeMapper.batch_find_nearest_nodes` on a batch
whose both entries are invalid returns a normal per-entry result list
`[None, None]` — no exception is raised, the batch is not aborted at the
first invalid point, and every entry is still processed. -/
theorem c4_counterexample :
    batchFindNearestNodes gMap [(91, 0), (-91, 0)] 500 = [none, none] := by
  have h1 : validate_coordinates 91 0 = false := by decide
  have h2 : validate_coordinates (-91) 0 = false := by decide
  simp [batchFindNearestNodes, findNearestNode_of_invalid _ _ _ _ h1,
    findNearestNode_of_invalid _ _ _ _ h2]

/-- C4 amended: the batch lookup maps `find_nearest_node` independently
over the entries, preserving input order and length; an invalid entry
yields `None` for that entry (no exception, no batch abort), and the other
entries are still looked up. -/
theorem c4_amended (g : RoadGraph) (coords : List (ℚ × ℚ)) (maxd : ℚ) :
    (batchFindNearestNodes g coords maxd).length = coords.length ∧
      (∀ i, (batchFindNearestNodes g coords maxd).get? i =
        (coords.get? i).map (fun c => findNearestNode g c.1 c.2 maxd)) ∧
      (∀ i c, coords.get? i = some c → validate_coordinates c.1 c.2 = false →
        (batchFindNearestNodes g coords maxd).get? i = some none) := by
  refine ⟨by simp [batchFindNearestNodes], batch_get_eq g coords maxd, ?_⟩
  intro i c hc hval
  rw [batch_get_eq, hc]
  simp [findNearestNode_of_invalid _ _ _ _ hval]

/-- Witness for C4 amended: a batch with an invalid first entry. -/
theorem c4_amended_witness :
    ([((91 : ℚ), (0 : ℚ)), (0, 0)].get? 0 = some (91, 0)) ∧
      validate_coordinates 91 0 = false ∧
      (batchFindNearestNodes gMap [(91, 0), (0, 0)] 500).get? 0 = some none :=
  ⟨rfl, by decide,
    (c4_amended gMap [(91, 0), (0, 0)] 500).2.2 0 (91, 0) rfl (by decide)⟩

/-- C5 counterexample: an out-of-range latitude makes
`NodeMapper.find_nearest_node` return `None` — the very value that also
signals the normal no-match outcome — rather than raising an
`InvalidCoordinate` error; the two outcomes are not distinguishable. -/
theorem c5_counterexample :
    findNearestNode gMap 91 0 500 = none ∧ validate_coordinates 91 0 = false :=
  ⟨findNearestNode_of_invalid gMap 91 0 500 (by decide), by decide⟩

/-- C5 amended: coordinate validation does precede any spatial lookup in
`NodeMapper.find_nearest_node`, but a validation failure produces `None`
(the no-match value) instead of an error, for every graph and every
max-distance. -/
theorem c5_amended (g : RoadGraph) (lat lon maxd : ℚ)
    (h : validate_coordinates lat lon = false) :
    findNearestNode g lat lon maxd = none :=
  findNearestNode_of_invalid g lat lon maxd h

/-- Witness for C5 amended at latitude 91. -/
theorem c5_amended_witness :
    validate_coordinates 91 0 = false ∧ findNearestNode gMap 91 0 500 = none :=
  ⟨by decide, c5_amended gMap 91 0 500 (by decide)⟩

end WorldCar

namespace WorldCar

/-!  ## Walk lemmas -/

theorem isWalk_nil (g : RoadGraph) (a b : ℕ) : IsWalk g a [] b ↔ a = b := Iff.rfl

theorem isWalk_cons (g : RoadGraph) (a b : ℕ) (e : REdge) (es : List REdge) :
    IsWalk g a (e :: es) b ↔ e ∈ g.edges ∧ e.src = a ∧ IsWalk g e.dst es b := Iff.rfl

theorem isWalk_append (g : RoadGraph) (es₁ es₂ : List REdge) :
    ∀ a b, IsWalk g a (es₁ ++ es₂) b ↔ ∃ c, IsWalk g a es₁ c ∧ IsWalk g c es₂ b := by
  induction es₁ with
  | nil =>
    intro a b
    constructor
    · intro h; exact ⟨a, rfl, h⟩
    · rintro ⟨c, hc, h⟩; cases hc; exact h
  | cons e es ih =>
    intro a b
    simp only [List.cons_append, isWalk_cons, ih]
    constructor
    · rintro ⟨he, hs, c, h₁, h₂⟩; exact ⟨c, ⟨he, hs, h₁⟩, h₂⟩
    · rintro ⟨c, ⟨he, hs, h₁⟩, h₂⟩; exact ⟨he, hs, c, h₁, h₂⟩

theorem walkWeight_nil : walkWeight [] = 0 := rfl

theorem walkWeight_cons (e : REdge) (es : List REdge) :
    walkWeight (e :: es) = ew e.length + walkWeight es := by
  simp [walkWeight]

theorem walkWeight_append (es₁ es₂ : List REdge) :
    walkWeight (es₁ ++ es₂) = walkWeight es₁ + walkWeight es₂ := by
  simp [walkWeight]

theorem walk_edges_mem (g : RoadGraph) :
    ∀ (es : List REdge) (a b : ℕ), IsWalk g a es b → ∀ e ∈ es, e ∈ g.edges := by
  intro es
  induction es with
  | nil => intro a b _ e he; cases he
  | cons f es ih =>
    intro a b h e he
    obtain ⟨hf, _, hw⟩ := h
    rcases he with _ | he
    · exact hf
    · exact ih _ _ hw e (by assumption)

theorem walkWeight_nonneg (g : RoadGraph)
    (hnn : ∀ e ∈ g.edges, (0 : WithTop ℚ) ≤ ew e.length) :
    ∀ (es : List REdge) (a b : ℕ), IsWalk g a es b → 0 ≤ walkWeight es := by
  intro es
  induction es with
  | nil => intro a b _; simp [walkWeight]
  | cons e es ih =>
    intro a b h
    obtain ⟨he, _, hw⟩ := h
    rw [walkWeight_cons]
    exact add_nonneg (hnn e he) (ih _ _ hw)

theorem no_negcycle_of_nonneg (g : RoadGraph) (s : ℕ)
    (hnn : ∀ e ∈ g.edges, (0 : WithTop ℚ) ≤ ew e.length) :
    ¬ NegCycleReachable g s := by
  rintro ⟨c, es₁, es₂, _, _, _, hcyc, hneg⟩
  exact absurd hneg (not_lt.mpr (walkWeight_nonneg g hnn es₂ c c hcyc))

/-!  ## Bellman-Ford pass lemmas -/

theorem bfRelax_d_le (st : BFState × Bool) (e : REdge) (v : ℕ) :
    (bfRelax st e).1.d v ≤ st.1.d v := by
  unfold bfRelax
  split
  · next h =>
    simp only [updF]
    split
    · next hv => subst hv; exact le_of_lt h
    · exact le_refl _
  · exact le_refl _

theorem foldl_bfRelax_d_le (l : List REdge) :
    ∀ (st : BFState × Bool) (v : ℕ), (l.foldl bfRelax st).1.d v ≤ st.1.d v := by
  induction l with
  | nil => intro st v; exact le_refl _
  | cons e l ih =>
    intro st v
    exact le_trans (ih (bfRelax st e) v) (bfRelax_d_le st e v)

theorem bfPass_d_le (edges : List REdge) (st : BFState) (v : ℕ) :
    (bfPass edges st).1.d v ≤ st.d v :=
  foldl_bfRelax_d_le edges (st, false) v

theorem foldl_bfRelax_true (l : List REdge) :
    ∀ (st : BFState × Bool), st.2 = true → (l.foldl bfRelax st).2 = true := by
  induction l with
  | nil => intro st h; exact h
  | cons e l ih =>
    intro st h
    apply ih
    unfold bfRelax
    split
    · rfl
    · exact h

theorem foldl_bfRelax_no_update (l : List REdge) :
    ∀ (st : BFState × Bool), (l.foldl bfRelax st).2 = false →
      (l.foldl bfRelax st).1 = st.1 ∧ st.2 = false ∧
        ∀ e ∈ l, ¬(st.1.d e.src + ew e.length < st.1.d e.dst) := by
  induction l with
  | nil => intro st h; exact ⟨rfl, h, fun e he => absurd he (List.not_mem_nil e)⟩
  | cons f l ih =>
    intro st h
    have hpair : bfRelax st f = st ∧ st.2 = false ∧
        ¬(st.1.d f.src + ew f.length < st.1.d f.dst) := by
      by_cases hrel : st.1.d f.src + ew f.length < st.1.d f.dst
      · exfalso
        have : (bfRelax st f).2 = true := by
          unfold bfRelax; rw [if_pos hrel]
        rw [List.foldl_cons, foldl_bfRelax_true l _ this] at h
        exact Bool.true_eq_false.mp h
      · have hst : bfRelax st f = st := by unfold bfRelax; rw [if_neg hrel]
        have h2 : st.2 = false := by
          rw [List.foldl_cons, hst] at h
          exact (ih st h).2.1
        exact ⟨hst, h2, hrel⟩
    obtain ⟨hst, h2, hrel⟩ := hpair
    rw [List.foldl_cons, hst] at h
    obtain ⟨ha, _, hb⟩ := ih st h
    refine ⟨by rw [List.foldl_cons, hst]; exact ha, h2, ?_⟩
    intro e he
    rcases he with _ | he
    · exact hrel
    · exact hb e (by assumption)

theorem bfPass_no_update (edges : List REdge) (st : BFState)
    (h : (bfPass edges st).2 = false) :
    (bfPass edges st).1 = st ∧
      ∀ e ∈ edges, ¬(st.d e.src + ew e.length < st.d e.dst) := by
  obtain ⟨ha, _, hb⟩ := foldl_bfRelax_no_update edges (st, false) h
  exact ⟨ha, hb⟩

theorem foldl_bfRelax_dst_le (l : List REdge) :
    ∀ (st : BFState × Bool) (e : REdge), e ∈ l →
      (l.foldl bfRelax st).1.d e.dst ≤ st.1.d e.src + ew e.length := by
  induction l with
  | nil => intro st e he; cases he
  | cons f l ih =>
    intro st e he
    rcases he with _ | he
    · have h1 : (bfRelax st f).1.d f.dst ≤ st.1.d f.src + ew f.length := by
        unfold bfRelax
        split
        · next h => simp [updF]
        · next h => exact not_lt.mp h
      calc (l.foldl bfRelax (bfRelax st f)).1.d f.dst
          ≤ (bfRelax st f).1.d f.dst := foldl_bfRelax_d_le l _ _
        _ ≤ st.1.d f.src + ew f.length := h1
    · calc (l.foldl bfRelax (bfRelax st f)).1.d e.dst
          ≤ (bfRelax st f).1.d e.src + ew e.length := ih _ e (by assumption)
        _ ≤ st.1.d e.src + ew e.length :=
            add_le_add_right (bfRelax_d_le st f e.src) _

theorem bfPass_dst_le (edges : List REdge) (st : BFState) (e : REdge) (he : e ∈ edges) :
    (bfPass edges st).1.d e.dst ≤ st.d e.src + ew e.length :=
  foldl_bfRelax_dst_le edges (st, false) e he

end WorldCar

namespace WorldCar

/-!  ## Rounds and iterates -/

theorem bfIter_succ_last (edges : List REdge) :
    ∀ (k : ℕ) (st : BFState),
      bfIter edges (k + 1) st = (bfPass edges (bfIter edges k st)).1 := by
  intro k
  induction k with
  | zero => intro st; rfl
  | succ k ih =>
    intro st
    show bfIter edges (k + 1) (bfPass edges st).1 = _
    rw [ih]
    rfl

theorem bfIter_d_le (edges : List REdge) :
    ∀ (k : ℕ) (st : BFState) (v : ℕ), (bfIter edges k st).d v ≤ st.d v := by
  intro k
  induction k with
  | zero => intro st v; exact le_refl _
  | succ k ih =>
    intro st v
    exact le_trans (ih (bfPass edges st).1 v) (bfPass_d_le edges st v)

theorem bfRounds_spec (edges : List REdge) :
    ∀ (k : ℕ) (st : BFState),
      (∃ j ≤ k, (bfRounds edges k st).1 = bfIter edges j st) ∧
        (bfRounds edges k st).2 ≤ k ∧
        ((bfRounds edges k st).1 = bfIter edges k st ∨
          (bfPass edges (bfRounds edges k st).1).2 = false) := by
  intro k
  induction k with
  | zero =>
    intro st
    exact ⟨⟨0, le_refl _, rfl⟩, le_refl _, Or.inl rfl⟩
  | succ k ih =>
    intro st
    by_cases hupd : (bfPass edges st).2 = true
    · have hdef : bfRounds edges (k + 1) st =
          ((bfRounds edges k (bfPass edges st).1).1,
            (bfRounds edges k (bfPass edges st).1).2 + 1) := by
        show (if (bfPass edges st).2 then _ else _) = _
        rw [if_pos hupd]
      obtain ⟨⟨j, hj, hst⟩, hcnt, hlast⟩ := ih (bfPass edges st).1
      refine ⟨⟨j + 1, by omega, ?_⟩, ?_, ?_⟩
      · rw [hdef]; exact hst
      · rw [hdef]; simpa using Nat.succ_le_succ hcnt
      · rw [hdef]
        rcases hlast with h | h
        · exact Or.inl h
        · exact Or.inr h
    · have hupd' : (bfPass edges st).2 = false := by
        cases h : (bfPass edges st).2
        · rfl
        · exact absurd h hupd
      have hfix : (bfPass edges st).1 = st := (bfPass_no_update edges st hupd').1
      have hdef : bfRounds edges (k + 1) st = ((bfPass edges st).1, 1) := by
        show (if (bfPass edges st).2 then _ else _) = _
        rw [if_neg hupd]
      refine ⟨⟨0, Nat.zero_le _, by rw [hdef]; exact hfix⟩, ?_, ?_⟩
      · rw [hdef]; omega
      · refine Or.inr ?_
        rw [hdef]
        show (bfPass edges (bfPass edges st).1).2 = false
        rw [hfix]
        exact hupd'

/-!  ## The walk invariant: every finite distance is the weight of a walk -/

theorem bfRelax_walkInv (g : RoadGraph) (s : ℕ) (stb : BFState × Bool) (e : REdge)
    (he : e ∈ g.edges)
    (h : ∀ v, stb.1.d v = ⊤ ∨ ∃ es, IsWalk g s es v ∧ walkWeight es = stb.1.d v) :
    ∀ v, (bfRelax stb e).1.d v = ⊤ ∨
      ∃ es, IsWalk g s es v ∧ walkWeight es = (bfRelax stb e).1.d v := by
  intro v
  unfold bfRelax
  split
  · next hrel =>
    simp only [updF]
    split
    · next hv =>
      subst hv
      have hsrc : stb.1.d e.src ≠ ⊤ := by
        intro htop
        rw [htop, top_add] at hrel
        exact absurd hrel (not_top_lt)
      rcases h e.src with htop | ⟨es, hw, hwt⟩
      · exact absurd htop hsrc
      · refine Or.inr ⟨es ++ [e], ?_, ?_⟩
        · exact (isWalk_append g es [e] s e.dst).mpr ⟨e.src, hw, ⟨he, rfl, rfl⟩⟩
        · rw [walkWeight_append, hwt, walkWeight_cons, walkWeight_nil, add_zero]
    · exact h v
  · exact h v

theorem foldl_bfRelax_walkInv (g : RoadGraph) (s : ℕ) :
    ∀ (l : List REdge), (∀ e ∈ l, e ∈ g.edges) →
      ∀ (stb : BFState × Bool),
        (∀ v, stb.1.d v = ⊤ ∨ ∃ es, IsWalk g s es v ∧ walkWeight es = stb.1.d v) →
        ∀ v, (l.foldl bfRelax stb).1.d v = ⊤ ∨
          ∃ es, IsWalk g s es v ∧ walkWeight es = (l.foldl bfRelax stb).1.d v := by
  intro l
  induction l with
  | nil => intro _ stb h v; exact h v
  | cons e l ih =>
    intro hmem stb h v
    exact ih (fun f hf => hmem f (List.mem_cons_of_mem e hf)) (bfRelax stb e)
      (bfRelax_walkInv g s stb e (hmem e (List.mem_cons_self e l)) h) v

theorem bfIter_walkInv (g : RoadGraph) (s : ℕ) :
    ∀ (k : ℕ) (st : BFState),
      (∀ v, st.d v = ⊤ ∨ ∃ es, IsWalk g s es v ∧ walkWeight es = st.d v) →
      ∀ v, (bfIter g.edges k st).d v = ⊤ ∨
        ∃ es, IsWalk g s es v ∧ walkWeight es = (bfIter g.edges k st).d v := by
  intro k
  induction k with
  | zero => intro st h; exact h
  | succ k ih =>
    intro st h
    exact ih (bfPass g.edges st).1
      (foldl_bfRelax_walkInv g s g.edges (fun _ hf => hf) (st, false) h)

theorem bfInit_walkInv (g : RoadGraph) (s : ℕ) :
    ∀ v, (bfInit s).d v = ⊤ ∨ ∃ es, IsWalk g s es v ∧ walkWeight es = (bfInit s).d v := by
  intro v
  by_cases hv : v = s
  · subst hv
    refine Or.inr ⟨[], rfl, ?_⟩
    simp [bfInit, updF, walkWeight]
  · refine Or.inl ?_
    simp [bfInit, updF, hv]

theorem bfInit_d_s (s : ℕ) : (bfInit s).d s = 0 := by
  simp [bfInit, updF]

/-!  ## Consistency implies no reachable negative cycle -/

theorem bfCheck_false_iff (edges : List REdge) (st : BFState) :
    bfCheck edges st = false ↔
      ∀ e ∈ edges, ¬(st.d e.src + ew e.length < st.d e.dst) := by
  simp [bfCheck, List.any_eq_false]

theorem consistent_walk_le (g : RoadGraph) (d : ℕ → WithTop ℚ)
    (hcons : ∀ e ∈ g.edges, d e.dst ≤ d e.src + ew e.length) :
    ∀ (es : List REdge) (a b : ℕ), IsWalk g a es b → d b ≤ d a + walkWeight es := by
  intro es
  induction es with
  | nil =>
    intro a b h
    cases h
    simp [walkWeight_nil]
  | cons e es ih =>
    intro a b h
    obtain ⟨he, hsrc, hw⟩ := h
    calc d b ≤ d e.dst + walkWeight es := ih e.dst b hw
      _ ≤ (d e.src + ew e.length) + walkWeight es :=
          add_le_add_right (hcons e he) _
      _ = d a + walkWeight (e :: es) := by
          rw [hsrc, walkWeight_cons, add_assoc]

theorem no_negcycle_of_consistent (g : RoadGraph) (s : ℕ) (d : ℕ → WithTop ℚ)
    (hcons : ∀ e ∈ g.edges, d e.dst ≤ d e.src + ew e.length)
    (hds : d s ≤ 0) : ¬ NegCycleReachable g s := by
  rintro ⟨c, es₁, es₂, hw1, hfin, hne, hw2, hneg⟩
  have hdc : d c ≤ walkWeight es₁ := by
    calc d c ≤ d s + walkWeight es₁ := consistent_walk_le g d hcons es₁ s c hw1
      _ ≤ 0 + walkWeight es₁ := add_le_add_right hds _
      _ = walkWeight es₁ := zero_add _
  have hdc_ne : d c ≠ ⊤ := ne_top_of_le_ne_top hfin hdc
  obtain ⟨q, hq⟩ := WithTop.ne_top_iff_exists.mp hdc_ne
  have hw2_ne : walkWeight es₂ ≠ ⊤ := ne_top_of_lt hneg
  obtain ⟨r, hr⟩ := WithTop.ne_top_iff_exists.mp hw2_ne
  have hcyc : d c ≤ d c + walkWeight es₂ := consistent_walk_le g d hcons es₂ c c hw2
  rw [← hq] at hcyc
  rw [← hr] at hcyc hneg
  rw [← WithTop.coe_add, WithTop.coe_le_coe] at hcyc
  have : (r : WithTop ℚ) < ((0 : ℚ) : WithTop ℚ) := by
    simpa using hneg
  rw [WithTop.coe_lt_coe] at this
  linarith

end WorldCar

namespace WorldCar

/-!  ## Upper bound: after k full passes, distances are below every walk of
length at most k -/

theorem bfIter_le_walk (g : RoadGraph) (s : ℕ) :
    ∀ (k : ℕ) (es : List REdge) (v : ℕ), IsWalk g s es v → es.length ≤ k →
      (bfIter g.edges k (bfInit s)).d v ≤ walkWeight es := by
  intro k
  induction k with
  | zero =>
    intro es v hw hlen
    have hes : es = [] := List.length_eq_zero.mp (Nat.le_zero.mp hlen)
    subst hes
    cases hw
    rw [walkWeight_nil]
    exact le_of_eq (bfInit_d_s s)
  | succ k ih =>
    intro es v hw hlen
    rcases List.eq_nil_or_concat es with hnil | ⟨es', e, hsnoc⟩
    · subst hnil
      cases hw
      rw [walkWeight_nil]
      calc (bfIter g.edges (k + 1) (bfInit s)).d s
          ≤ (bfInit s).d s := bfIter_d_le g.edges (k + 1) (bfInit s) s
        _ = 0 := bfInit_d_s s
    · rw [List.concat_eq_append] at hsnoc
      subst hsnoc
      obtain ⟨c, hw1, hw2⟩ := (isWalk_append g es' [e] s v).mp hw
      obtain ⟨he, hsrc, hdst⟩ := hw2
      have hdst' : e.dst = v := hdst
      have hlen' : es'.length ≤ k := by
        simp only [List.length_append, List.length_cons, List.length_nil] at hlen
        omega
      have h1 : (bfIter g.edges k (bfInit s)).d e.src ≤ walkWeight es' := by
        rw [hsrc]; exact ih es' c hw1 hlen'
      calc (bfIter g.edges (k + 1) (bfInit s)).d v
          = (bfPass g.edges (bfIter g.edges k (bfInit s))).1.d v := by
            rw [bfIter_succ_last]
        _ = (bfPass g.edges (bfIter g.edges k (bfInit s))).1.d e.dst := by rw [hdst']
        _ ≤ (bfIter g.edges k (bfInit s)).d e.src + ew e.length :=
            bfPass_dst_le g.edges _ e he
        _ ≤ walkWeight es' + ew e.length := add_le_add_right h1 _
        _ = walkWeight (es' ++ [e]) := by
            rw [walkWeight_append, walkWeight_cons, walkWeight_nil, add_zero]

/-!  ## Pigeonhole: long walks revisit a vertex -/

theorem exists_dup_split :
    ∀ (l amb : List ℕ), (∀ x ∈ l, x ∈ amb) → amb.length < l.length →
      ∃ pre c mid suf, l = pre ++ c :: mid ++ c :: suf := by
  intro l
  induction l with
  | nil =>
    intro amb _ h
    rw [List.length_nil] at h
    exact absurd h (Nat.not_lt_zero _)
  | cons a l ih =>
    intro amb hsub hlen
    by_cases ha : a ∈ l
    · obtain ⟨s, t, hst⟩ := List.append_of_mem ha
      exact ⟨[], a, s, t, by rw [hst]; simp⟩
    · have hsub' : ∀ x ∈ l, x ∈ amb.erase a := by
        intro x hx
        refine (List.mem_erase_of_ne ?_).mpr (hsub x (List.mem_cons_of_mem a hx))
        intro hxa
        exact ha (hxa ▸ hx)
      have hmem : a ∈ amb := hsub a (List.mem_cons_self a l)
      have hpos : 0 < amb.length := List.length_pos_of_mem hmem
      have hlen' : (amb.erase a).length < l.length := by
        rw [List.length_erase_of_mem hmem]
        simp only [List.length_cons] at hlen
        omega
      obtain ⟨pre, c, mid, suf, hsplit⟩ := ih (amb.erase a) hsub' hlen'
      exact ⟨a :: pre, c, mid, suf, by rw [hsplit]; rfl⟩

theorem walkVerts_length (a : ℕ) (es : List REdge) :
    (walkVerts a es).length = es.length + 1 := by
  simp [walkVerts]

theorem walkVerts_subset (g : RoadGraph) (hwf : WF g) :
    ∀ (es : List REdge) (a v : ℕ), a ∈ g.nodes → IsWalk g a es v →
      ∀ x ∈ walkVerts a es, x ∈ g.nodes := by
  intro es
  induction es with
  | nil =>
    intro a v ha _ x hx
    have hxa : x = a := by simpa [walkVerts] using hx
    exact hxa ▸ ha
  | cons e es ih =>
    intro a v ha hw x hx
    obtain ⟨he, _, hw'⟩ := hw
    have hx' : x = a ∨ x ∈ walkVerts e.dst es := by
      simpa [walkVerts] using hx
    rcases hx' with hxa | hx'
    · exact hxa ▸ ha
    · exact ih e.dst v ((hwf e he).2) hw' x hx'

theorem walkVerts_split (g : RoadGraph) :
    ∀ (l₁ : List ℕ) (es : List REdge) (a b c : ℕ) (l₂ : List ℕ),
      IsWalk g a es b → walkVerts a es = l₁ ++ c :: l₂ →
      ∃ es₁ es₂, es = es₁ ++ es₂ ∧ es₁.length = l₁.length ∧
        IsWalk g a es₁ c ∧ IsWalk g c es₂ b ∧ walkVerts c es₂ = c :: l₂ := by
  intro l₁
  induction l₁ with
  | nil =>
    intro es a b c l₂ hw heq
    simp only [walkVerts, List.nil_append, List.cons.injEq] at heq
    obtain ⟨hac, hmap⟩ := heq
    subst hac
    refine ⟨[], es, rfl, rfl, rfl, hw, ?_⟩
    simp only [walkVerts, hmap]
  | cons x l₁ ih =>
    intro es a b c l₂ hw heq
    simp only [walkVerts, List.cons_append, List.cons.injEq] at heq
    obtain ⟨hax, hmap⟩ := heq
    cases es with
    | nil => simp at hmap
    | cons e es' =>
      obtain ⟨he, hsrc, hw'⟩ := hw
      have hverts : walkVerts e.dst es' = l₁ ++ c :: l₂ := by
        simp only [walkVerts]
        simpa using hmap
      obtain ⟨es₁, es₂, hsplit, hlen, hwa, hwb, hv⟩ :=
        ih es' e.dst b c l₂ hw' hverts
      exact ⟨e :: es₁, es₂, by rw [hsplit]; rfl, by simp [hlen], ⟨he, hsrc, hwa⟩, hwb, hv⟩

end WorldCar

namespace WorldCar

theorem walk_split_cycle (g : RoadGraph) (hwf : WF g) (s : ℕ) (hs : s ∈ g.nodes)
    (es : List REdge) (v : ℕ) (hw : IsWalk g s es v)
    (hlen : g.nodes.length ≤ es.length) :
    ∃ c es₁ es₂ es₃, es = es₁ ++ es₂ ++ es₃ ∧ es₂ ≠ [] ∧
      IsWalk g s es₁ c ∧ IsWalk g c es₂ c ∧ IsWalk g c es₃ v := by
  have hsub := walkVerts_subset g hwf es s v hs hw
  have hlen2 : g.nodes.length < (walkVerts s es).length := by
    rw [walkVerts_length]; omega
  obtain ⟨pre, c, mid, suf, hsplit⟩ :=
    exists_dup_split (walkVerts s es) g.nodes hsub hlen2
  have h1 : walkVerts s es = pre ++ c :: (mid ++ c :: suf) := by
    rw [hsplit]; simp
  obtain ⟨es₁, esR, hes, _, hw1, hwR, hvR⟩ :=
    walkVerts_split g pre es s v c (mid ++ c :: suf) hw h1
  have h2 : walkVerts c esR = (c :: mid) ++ c :: suf := by
    rw [hvR]; simp
  obtain ⟨es₂, es₃, hesR, hlen₂, hw2, hw3, _⟩ :=
    walkVerts_split g (c :: mid) esR c v c suf hwR h2
  have hne : es₂ ≠ [] := by
    intro h
    rw [h] at hlen₂
    simp at hlen₂
  exact ⟨c, es₁, es₂, es₃, by rw [hes, hesR, List.append_assoc], hne, hw1, hw2, hw3⟩

theorem shorten_walk_len (g : RoadGraph) (hwf : WF g) (s : ℕ) (hs : s ∈ g.nodes) :
    ∀ (n : ℕ) (es : List REdge) (v : ℕ), es.length ≤ n → IsWalk g s es v →
      ∃ es', IsWalk g s es' v ∧ es'.length ≤ g.nodes.length - 1 := by
  intro n
  induction n with
  | zero =>
    intro es v hlen hw
    exact ⟨es, hw, by omega⟩
  | succ n ih =>
    intro es v hlen hw
    by_cases hsmall : es.length ≤ g.nodes.length - 1
    · exact ⟨es, hw, hsmall⟩
    · have hpos : 0 < g.nodes.length := List.length_pos_of_mem hs
      have hbig : g.nodes.length ≤ es.length := by omega
      obtain ⟨c, es₁, es₂, es₃, hsplit, hne, hw1, hw2, hw3⟩ :=
        walk_split_cycle g hwf s hs es v hw hbig
      have hwalk : IsWalk g s (es₁ ++ es₃) v :=
        (isWalk_append g es₁ es₃ s v).mpr ⟨c, hw1, hw3⟩
      have hne' : 0 < es₂.length := List.length_pos.mpr hne
      have hlt : (es₁ ++ es₃).length ≤ n := by
        have : es.length = es₁.length + (es₂.length + es₃.length) := by
          rw [hsplit]; simp
        simp only [List.length_append]
        omega
      exact ih (es₁ ++ es₃) v hlt hwalk

theorem shorten_walk_weight (g : RoadGraph) (hwf : WF g) (s : ℕ) (hs : s ∈ g.nodes)
    (hnc : ¬ NegCycleReachable g s) :
    ∀ (n : ℕ) (es : List REdge) (v : ℕ), es.length ≤ n → IsWalk g s es v →
      walkWeight es ≠ ⊤ →
      ∃ es', IsWalk g s es' v ∧ es'.length ≤ g.nodes.length - 1 ∧
        walkWeight es' ≤ walkWeight es := by
  intro n
  induction n with
  | zero =>
    intro es v hlen hw _
    exact ⟨es, hw, by omega, le_refl _⟩
  | succ n ih =>
    intro es v hlen hw hfin
    by_cases hsmall : es.length ≤ g.nodes.length - 1
    · exact ⟨es, hw, hsmall, le_refl _⟩
    · have hpos : 0 < g.nodes.length := List.length_pos_of_mem hs
      have hbig : g.nodes.length ≤ es.length := by omega
      obtain ⟨c, es₁, es₂, es₃, hsplit, hne, hw1, hw2, hw3⟩ :=
        walk_split_cycle g hwf s hs es v hw hbig
      have hweq : walkWeight es =
          walkWeight es₁ + (walkWeight es₂ + walkWeight es₃) := by
        rw [hsplit, walkWeight_append, walkWeight_append, add_assoc]
      have hfin1 : walkWeight es₁ ≠ ⊤ ∧
          walkWeight es₂ ≠ ⊤ ∧ walkWeight es₃ ≠ ⊤ := by
        rw [hweq] at hfin
        obtain ⟨h1, h23⟩ := WithTop.add_ne_top.mp hfin
        obtain ⟨h2, h3⟩ := WithTop.add_ne_top.mp h23
        exact ⟨h1, h2, h3⟩
      have hnonneg : 0 ≤ walkWeight es₂ := by
        by_contra hneg
        exact hnc ⟨c, es₁, es₂, hw1, hfin1.1, hne, hw2, not_le.mp hneg⟩
      have hwalk : IsWalk g s (es₁ ++ es₃) v :=
        (isWalk_append g es₁ es₃ s v).mpr ⟨c, hw1, hw3⟩
      have hne' : 0 < es₂.length := List.length_pos.mpr hne
      have hlt : (es₁ ++ es₃).length ≤ n := by
        have : es.length = es₁.length + (es₂.length + es₃.length) := by
          rw [hsplit]; simp
        simp only [List.length_append]
        omega
      have hwle : walkWeight (es₁ ++ es₃) ≤ walkWeight es := by
        rw [walkWeight_append, hweq]
        exact add_le_add_left (le_add_of_nonneg_left hnonneg) _
      have hfin' : walkWeight (es₁ ++ es₃) ≠ ⊤ := by
        rw [walkWeight_append]
        exact WithTop.add_ne_top.mpr ⟨hfin1.1, hfin1.2.2⟩
      obtain ⟨es', hes'w, hes'len, hes'wt⟩ := ih (es₁ ++ es₃) v hlt hwalk hfin'
      exact ⟨es', hes'w, hes'len, le_trans hes'wt hwle⟩

/-!  ## The two directions of the negative-cycle characterization -/

theorem bf_check_imp_negcycle (g : RoadGraph) (s : ℕ) (hwf : WF g) (hs : s ∈ g.nodes)
    (hchk : bfCheck g.edges (bfRounds g.edges (g.nodes.length - 1) (bfInit s)).1 = true) :
    NegCycleReachable g s := by
  by_contra hnc
  obtain ⟨⟨j, hj, hstate⟩, _, hlast⟩ :=
    bfRounds_spec g.edges (g.nodes.length - 1) (bfInit s)
  rcases hlast with hfull | hfix
  · rw [hfull] at hchk
    have hex : ∃ e ∈ g.edges,
        (bfIter g.edges (g.nodes.length - 1) (bfInit s)).d e.src + ew e.length <
          (bfIter g.edges (g.nodes.length - 1) (bfInit s)).d e.dst := by
      simpa [bfCheck, List.any_eq_true] using hchk
    obtain ⟨e, he, hrel⟩ := hex
    have hsrc_ne : (bfIter g.edges (g.nodes.length - 1) (bfInit s)).d e.src ≠ ⊤ := by
      intro htop
      rw [htop, top_add] at hrel
      exact not_top_lt hrel
    rcases bfIter_walkInv g s (g.nodes.length - 1) (bfInit s) (bfInit_walkInv g s)
        e.src with htop | ⟨es, hwk, hwt⟩
    · exact hsrc_ne htop
    · have hext : IsWalk g s (es ++ [e]) e.dst :=
        (isWalk_append g es [e] s e.dst).mpr ⟨e.src, hwk, ⟨he, rfl, rfl⟩⟩
      have hwext : walkWeight (es ++ [e]) =
          (bfIter g.edges (g.nodes.length - 1) (bfInit s)).d e.src + ew e.length := by
        rw [walkWeight_append, hwt, walkWeight_cons, walkWeight_nil, add_zero]
      have hfin : walkWeight (es ++ [e]) ≠ ⊤ := by
        rw [hwext]
        exact ne_top_of_lt hrel
      obtain ⟨es', hes'w, hes'len, hes'wt⟩ :=
        shorten_walk_weight g hwf s hs hnc (es ++ [e]).length (es ++ [e]) e.dst
          (le_refl _) hext hfin
      have hub : (bfIter g.edges (g.nodes.length - 1) (bfInit s)).d e.dst ≤
          walkWeight es' := bfIter_le_walk g s (g.nodes.length - 1) es' e.dst hes'w hes'len
      have hcontra := lt_of_le_of_lt (hub.trans (hes'wt.trans_eq hwext)) hrel
      exact absurd hcontra (lt_irrefl _)
  · obtain ⟨_, hnorel⟩ := bfPass_no_update g.edges _ hfix
    rw [(bfCheck_false_iff g.edges _).mpr hnorel] at hchk
    exact Bool.false_ne_true hchk

theorem bf_check_false_imp_no_negcycle (g : RoadGraph) (s : ℕ)
    (hchk : bfCheck g.edges (bfRounds g.edges (g.nodes.length - 1) (bfInit s)).1 = false) :
    ¬ NegCycleReachable g s := by
  obtain ⟨⟨j, hj, hstate⟩, _, _⟩ :=
    bfRounds_spec g.edges (g.nodes.length - 1) (bfInit s)
  have hcons : ∀ e ∈ g.edges,
      (bfRounds g.edges (g.nodes.length - 1) (bfInit s)).1.d e.dst ≤
        (bfRounds g.edges (g.nodes.length - 1) (bfInit s)).1.d e.src + ew e.length :=
    fun e he => not_lt.mp ((bfCheck_false_iff _ _).mp hchk e he)
  have hds : (bfRounds g.edges (g.nodes.length - 1) (bfInit s)).1.d s ≤ 0 := by
    rw [hstate]
    exact le_trans (bfIter_d_le g.edges j (bfInit s) s) (le_of_eq (bfInit_d_s s))
  exact no_negcycle_of_consistent g s _ hcons hds

end WorldCar

namespace WorldCar

theorem bellmanFordRun_of_check_true (g : RoadGraph) (s t : ℕ) (τ : ℚ)
    (h : bfCheck g.edges (bfRounds g.edges (g.nodes.length - 1) (bfInit s)).1 = true) :
    bellmanFordRun g s t τ = BFResult.negativeCycleError := by
  simp [bellmanFordRun, h]

theorem bellmanFordRun_ne_error_of_check_false (g : RoadGraph) (s t : ℕ) (τ : ℚ)
    (h : bfCheck g.edges (bfRounds g.edges (g.nodes.length - 1) (bfInit s)).1 = false) :
    bellmanFordRun g s t τ ≠ BFResult.negativeCycleError := by
  intro herr
  simp only [bellmanFordRun, h, Bool.false_eq_true, if_false] at herr
  split at herr
  · exact BFResult.noConfusion herr
  · split at herr
    · exact BFResult.noConfusion herr
    · exact BFResult.noConfusion herr

/-- C8: Bellman-Ford runs at most node_count - 1 relaxation rounds (with
early termination on a round without relaxation, which is a fixpoint), then
performs one more full check pass and raises (the `ValueError` standing for
`NegativeCycleDetected`) exactly when some edge still relaxes — which
happens if and only if a negative-weight cycle is reachable from the
source. -/
theorem c8_negative_cycle_iff (g : RoadGraph) (s t : ℕ) (τ : ℚ)
    (hwf : WF g) (hs : s ∈ g.nodes) :
    (bellmanFordRun g s t τ = BFResult.negativeCycleError ↔ NegCycleReachable g s) ∧
      (bfRounds g.edges (g.nodes.length - 1) (bfInit s)).2 ≤ g.nodes.length - 1 := by
  refine ⟨⟨?_, ?_⟩, (bfRounds_spec g.edges (g.nodes.length - 1) (bfInit s)).2.1⟩
  · intro herr
    apply bf_check_imp_negcycle g s hwf hs
    by_contra h
    have hfalse : bfCheck g.edges
        (bfRounds g.edges (g.nodes.length - 1) (bfInit s)).1 = false := by
      cases hc : bfCheck g.edges (bfRounds g.edges (g.nodes.length - 1) (bfInit s)).1
      · rfl
      · exact absurd hc h
    exact bellmanFordRun_ne_error_of_check_false g s t τ hfalse herr
  · intro hnc
    apply bellmanFordRun_of_check_true
    by_contra h
    have hfalse : bfCheck g.edges
        (bfRounds g.edges (g.nodes.length - 1) (bfInit s)).1 = false := by
      cases hc : bfCheck g.edges (bfRounds g.edges (g.nodes.length - 1) (bfInit s)).1
      · rfl
      · exact absurd hc h
    exact absurd hnc (bf_check_false_imp_no_negcycle g s hfalse)

/-- Witness for C8: the 3-node graph with the reachable negative cycle
2 → 3 → 2 of total weight -4 makes the run raise. -/
theorem c8_negative_cycle_iff_witness :
    WF gNeg ∧ 1 ∈ gNeg.nodes ∧
      bellmanFordRun gNeg 1 3 3 = BFResult.negativeCycleError := by
  refine ⟨by decide, by decide, ?_⟩
  refine ((c8_negative_cycle_iff gNeg 1 3 3 (by decide) (by decide)).1).mpr ?_
  refine ⟨2, [⟨1, 2, some 1⟩], [⟨2, 3, some 1⟩, ⟨3, 2, some (-5)⟩],
    ⟨by simp [gNeg], rfl, rfl⟩, ?_, by simp, ⟨by simp [gNeg], rfl, by simp [gNeg], rfl, rfl⟩, ?_⟩
  · show walkWeight [⟨1, 2, some 1⟩] ≠ ⊤
    simp [walkWeight, ew]
  · show walkWeight [⟨2, 3, some 1⟩, ⟨3, 2, some (-5)⟩] < 0
    rw [walkWeight_cons, walkWeight_cons, walkWeight_nil, add_zero]
    show ((1 : ℚ) : WithTop ℚ) + ((-5 : ℚ) : WithTop ℚ) < 0
    rw [← WithTop.coe_add, show (0 : WithTop ℚ) = ((0 : ℚ) : WithTop ℚ) from rfl,
      WithTop.coe_lt_coe]
    norm_num

end WorldCar

namespace WorldCar

/-!  ## Nonnegative-weight invariants for Bellman-Ford -/

theorem bfRelax_nn (s : ℕ) (stb : BFState × Bool) (e : REdge)
    (hw : (0 : WithTop ℚ) ≤ ew e.length)
    (h0 : ∀ v, 0 ≤ stb.1.d v) (hds : stb.1.d s = 0) (hps : stb.1.p s = none) :
    (∀ v, 0 ≤ (bfRelax stb e).1.d v) ∧ (bfRelax stb e).1.d s = 0 ∧
      (bfRelax stb e).1.p s = none := by
  unfold bfRelax
  split
  · next hrel =>
    have hdst : e.dst ≠ s := by
      intro h
      rw [h, hds] at hrel
      exact absurd hrel (not_lt.mpr (add_nonneg (h0 e.src) hw))
    refine ⟨?_, ?_, ?_⟩
    · intro v
      simp only [updF]
      split
      · exact add_nonneg (h0 e.src) hw
      · exact h0 v
    · simp only [updF]
      rw [if_neg (fun h => hdst h.symm)]
      exact hds
    · simp only [updF]
      rw [if_neg (fun h => hdst h.symm)]
      exact hps
  · exact ⟨h0, hds, hps⟩

theorem foldl_bfRelax_nn (s : ℕ) :
    ∀ (l : List REdge), (∀ e ∈ l, (0 : WithTop ℚ) ≤ ew e.length) →
      ∀ (stb : BFState × Bool),
        (∀ v, 0 ≤ stb.1.d v) → stb.1.d s = 0 → stb.1.p s = none →
        (∀ v, 0 ≤ (l.foldl bfRelax stb).1.d v) ∧
          (l.foldl bfRelax stb).1.d s = 0 ∧ (l.foldl bfRelax stb).1.p s = none := by
  intro l
  induction l with
  | nil => intro _ stb h0 hds hps; exact ⟨h0, hds, hps⟩
  | cons e l ih =>
    intro hnn stb h0 hds hps
    obtain ⟨h0', hds', hps'⟩ :=
      bfRelax_nn s stb e (hnn e (List.mem_cons_self e l)) h0 hds hps
    exact ih (fun f hf => hnn f (List.mem_cons_of_mem e hf)) (bfRelax stb e) h0' hds' hps'

theorem bfIter_nn (g : RoadGraph) (s : ℕ)
    (hnn : ∀ e ∈ g.edges, (0 : WithTop ℚ) ≤ ew e.length) :
    ∀ (k : ℕ) (st : BFState),
      (∀ v, 0 ≤ st.d v) → st.d s = 0 → st.p s = none →
      (∀ v, 0 ≤ (bfIter g.edges k st).d v) ∧
        (bfIter g.edges k st).d s = 0 ∧ (bfIter g.edges k st).p s = none := by
  intro k
  induction k with
  | zero => intro st h0 hds hps; exact ⟨h0, hds, hps⟩
  | succ k ih =>
    intro st h0 hds hps
    obtain ⟨h0', hds', hps'⟩ := foldl_bfRelax_nn s g.edges hnn (st, false) h0 hds hps
    exact ih (bfPass g.edges st).1 h0' hds' hps'

theorem bfInit_nn (s : ℕ) :
    (∀ v, 0 ≤ (bfInit s).d v) ∧ (bfInit s).d s = 0 ∧ (bfInit s).p s = none := by
  refine ⟨?_, bfInit_d_s s, rfl⟩
  intro v
  simp only [bfInit, updF]
  split
  · exact le_refl _
  · exact le_top

theorem bf_final_nn (g : RoadGraph) (s : ℕ)
    (hnn : ∀ e ∈ g.edges, (0 : WithTop ℚ) ≤ ew e.length) :
    (∀ v, 0 ≤ (bfRounds g.edges (g.nodes.length - 1) (bfInit s)).1.d v) ∧
      (bfRounds g.edges (g.nodes.length - 1) (bfInit s)).1.d s = 0 ∧
      (bfRounds g.edges (g.nodes.length - 1) (bfInit s)).1.p s = none := by
  obtain ⟨⟨j, _, hstate⟩, _, _⟩ := bfRounds_spec g.edges (g.nodes.length - 1) (bfInit s)
  rw [hstate]
  obtain ⟨h0, hds, hps⟩ := bfInit_nn s
  exact bfIter_nn g s hnn j (bfInit s) h0 hds hps

theorem bf_final_top_of_unreachable (g : RoadGraph) (s t : ℕ)
    (hnr : ¬ ReachableW g s t) :
    (bfRounds g.edges (g.nodes.length - 1) (bfInit s)).1.d t = ⊤ := by
  obtain ⟨⟨j, _, hstate⟩, _, _⟩ := bfRounds_spec g.edges (g.nodes.length - 1) (bfInit s)
  rw [hstate]
  rcases bfIter_walkInv g s j (bfInit s) (bfInit_walkInv g s) t with htop | ⟨es, hwk, _⟩
  · exact htop
  · exact absurd ⟨es, hwk⟩ hnr

theorem bf_check_false_of_nonneg (g : RoadGraph) (s : ℕ) (hwf : WF g) (hs : s ∈ g.nodes)
    (hnn : ∀ e ∈ g.edges, (0 : WithTop ℚ) ≤ ew e.length) :
    bfCheck g.edges (bfRounds g.edges (g.nodes.length - 1) (bfInit s)).1 = false := by
  cases hc : bfCheck g.edges (bfRounds g.edges (g.nodes.length - 1) (bfInit s)).1
  · rfl
  · exact absurd (bf_check_imp_negcycle g s hwf hs hc) (no_negcycle_of_nonneg g s hnn)

theorem bfRecon_base (p : ℕ → Option ℕ) (t : ℕ) (hp : p t = none) (fuel : ℕ) :
    bfRecon p (fuel + 1) t [] = some [t] := by
  simp [bfRecon, hp]

end WorldCar

namespace WorldCar

/-!  ## Reachability helpers -/

theorem mem_dedupFirstAux :
    ∀ (l seen : List ℕ) (x : ℕ), x ∈ dedupFirstAux seen l ↔ x ∈ l ∧ x ∉ seen := by
  intro l
  induction l with
  | nil => intro seen x; simp [dedupFirstAux]
  | cons a l ih =>
    intro seen x
    simp only [dedupFirstAux]
    split
    · next ha =>
      rw [ih]
      constructor
      · rintro ⟨hx, hns⟩
        exact ⟨List.mem_cons_of_mem a hx, hns⟩
      · rintro ⟨hx, hns⟩
        rcases List.mem_cons.mp hx with hxa | hx
        · exact absurd (hxa ▸ ha) hns
        · exact ⟨hx, hns⟩
    · next ha =>
      constructor
      · intro hx
        rcases List.mem_cons.mp hx with hxa | hx
        · exact ⟨by rw [hxa]; exact List.mem_cons_self a l, by rw [hxa]; exact ha⟩
        · obtain ⟨h1, h2⟩ := (ih (a :: seen) x).mp hx
          exact ⟨List.mem_cons_of_mem a h1, fun hs => h2 (List.mem_cons_of_mem a hs)⟩
      · rintro ⟨hx, hns⟩
        rcases List.mem_cons.mp hx with hxa | hx
        · rw [hxa]; exact List.mem_cons_self a _
        · by_cases hxa : x = a
          · rw [hxa]; exact List.mem_cons_self a _
          · refine List.mem_cons_of_mem a ((ih (a :: seen) x).mpr ⟨hx, ?_⟩)
            intro hs
            rcases List.mem_cons.mp hs with h | h
            · exact hxa h
            · exact hns h

theorem mem_dedupFirst (l : List ℕ) (x : ℕ) : x ∈ dedupFirst l ↔ x ∈ l := by
  rw [dedupFirst, mem_dedupFirstAux]
  simp

theorem succ_mem_iff (g : RoadGraph) (u v : ℕ) :
    v ∈ successors g u ↔ ∃ e ∈ g.edges, e.src = u ∧ e.dst = v := by
  rw [successors, mem_dedupFirst]
  simp only [List.mem_map, List.mem_filter]
  constructor
  · rintro ⟨e, ⟨he, hsrc⟩, hdst⟩
    exact ⟨e, he, by simpa using hsrc, hdst⟩
  · rintro ⟨e, he, hsrc, hdst⟩
    exact ⟨e, ⟨he, by simpa using hsrc⟩, hdst⟩

theorem reach_refl (g : RoadGraph) (s : ℕ) : ReachableW g s s := ⟨[], rfl⟩

theorem reach_extend (g : RoadGraph) (s u v : ℕ) (hu : ReachableW g s u)
    (hv : v ∈ successors g u) : ReachableW g s v := by
  obtain ⟨es, hw⟩ := hu
  obtain ⟨e, he, hsrc, hdst⟩ := (succ_mem_iff g u v).mp hv
  refine ⟨es ++ [e], ?_⟩
  refine (isWalk_append g es [e] s v).mpr ⟨u, hw, ⟨he, hsrc, hdst⟩⟩

theorem mem_heapPush {α : Type} [LinearOrder α] :
    ∀ (h : List (α × ℕ)) (y x : α × ℕ), x ∈ heapPush h y ↔ x ∈ h ∨ x = y := by
  intro h
  induction h with
  | nil => intro y x; simp [heapPush]
  | cons z h ih =>
    intro y x
    simp only [heapPush]
    split
    · simp only [List.mem_cons]
      tauto
    · simp only [List.mem_cons, ih]
      tauto

/-!  ## Dijkstra: every stored distance key is reachable from the source -/

theorem dijkstra_fold_reach (g : RoadGraph) (s cu : ℕ) (cd : WithTop ℚ)
    (visited : List ℕ) (hcu : ReachableW g s cu) :
    ∀ (l : List ℕ), (∀ nb ∈ l, nb ∈ successors g cu) →
      ∀ st, (∀ v, st.1 v ≠ ⊤ → ReachableW g s v) →
        (∀ x ∈ st.2.2, ReachableW g s x.2) →
        (∀ v, ((l.foldl (dijkstraRelax g cu cd visited) st).1 v ≠ ⊤ →
          ReachableW g s v)) ∧
        (∀ x ∈ (l.foldl (dijkstraRelax g cu cd visited) st).2.2,
          ReachableW g s x.2) := by
  intro l
  induction l with
  | nil => intro _ st hd hq; exact ⟨hd, hq⟩
  | cons nb l ih =>
    intro hsub st hd hq
    have hnb : ReachableW g s nb :=
      reach_extend g s cu nb hcu (hsub nb (List.mem_cons_self nb l))
    have hstep :
        (∀ v, (dijkstraRelax g cu cd visited st nb).1 v ≠ ⊤ → ReachableW g s v) ∧
        (∀ x ∈ (dijkstraRelax g cu cd visited st nb).2.2, ReachableW g s x.2) := by
      unfold dijkstraRelax
      split
      · exact ⟨hd, hq⟩
      · split
        · refine ⟨?_, ?_⟩
          · intro v hv
            by_cases hvnb : v = nb
            · exact hvnb ▸ hnb
            · refine hd v ?_
              simpa [updF, hvnb] using hv
          · intro x hx
            rcases (mem_heapPush _ _ _).mp hx with hx | hx
            · exact hq x hx
            · rw [hx]; exact hnb
        · exact ⟨hd, hq⟩
    exact ih (fun f hf => hsub f (List.mem_cons_of_mem nb hf)) _ hstep.1 hstep.2

theorem dijkstra_loop_reach (g : RoadGraph) (s t : ℕ) :
    ∀ (fuel : ℕ) (pq : List (WithTop ℚ × ℕ)) (dist : ℕ → WithTop ℚ)
      (prev : ℕ → Option ℕ) (visited : List ℕ) (res),
      (∀ v, dist v ≠ ⊤ → ReachableW g s v) →
      (∀ x ∈ pq, ReachableW g s x.2) →
      dijkstraLoop g t fuel pq dist prev visited = some res →
      ∀ v, res.1 v ≠ ⊤ → ReachableW g s v := by
  intro fuel
  induction fuel with
  | zero => intro pq dist prev visited res _ _ h; exact absurd h (by simp [dijkstraLoop])
  | succ fuel ih =>
    intro pq dist prev visited res hd hq hloop
    match pq, hloop with
    | [], hloop =>
      have : res = (dist, prev, visited) := by
        simpa [dijkstraLoop, heapPop] using hloop.symm
      rw [this]
      exact hd
    | (cd, cu) :: rest, hloop =>
      rw [dijkstraLoop] at hloop
      simp only [heapPop] at hloop
      by_cases hvis : cu ∈ visited
      · rw [if_pos hvis] at hloop
        exact ih rest dist prev visited res hd
          (fun x hx => hq x (List.mem_cons_of_mem _ hx)) hloop
      · rw [if_neg hvis] at hloop
        have hcu : ReachableW g s cu := hq (cd, cu) (List.mem_cons_self _ _)
        by_cases hct : cu = t
        · rw [if_pos hct] at hloop
          have : res = (dist, prev, cu :: visited) := by simpa using hloop.symm
          rw [this]
          exact hd
        · rw [if_neg hct] at hloop
          obtain ⟨hd', hq'⟩ := dijkstra_fold_reach g s cu cd (cu :: visited) hcu
            (successors g cu) (fun nb hnb => hnb) (dist, prev, rest) hd
            (fun x hx => hq x (List.mem_cons_of_mem _ hx))
          exact ih _ _ _ _ res hd' hq' hloop

end WorldCar

namespace WorldCar

/-!  ## A*: every stored predecessor key is reachable from the source -/

theorem astar_fold_reach (g : RoadGraph) (ε : ℝ) (s t cu : ℕ) (hcu : ReachableW g s cu) :
    ∀ (l : List ℕ), (∀ nb ∈ l, nb ∈ successors g cu) →
      ∀ st : (ℕ → WithTop ℝ) × (ℕ → Option ℕ) × List (WithTop ℝ × ℕ),
        (∀ v, st.2.1 v ≠ none → ReachableW g s v) →
        (∀ x ∈ st.2.2, ReachableW g s x.2) →
        (∀ v, (l.foldl (astarRelax g ε t cu) st).2.1 v ≠ none → ReachableW g s v) ∧
        (∀ x ∈ (l.foldl (astarRelax g ε t cu) st).2.2, ReachableW g s x.2) := by
  intro l
  induction l with
  | nil => intro _ st hp hq; exact ⟨hp, hq⟩
  | cons nb l ih =>
    intro hsub st hp hq
    have hnb : ReachableW g s nb :=
      reach_extend g s cu nb hcu (hsub nb (List.mem_cons_self nb l))
    have hstep :
        (∀ v, (astarRelax g ε t cu st nb).2.1 v ≠ none → ReachableW g s v) ∧
        (∀ x ∈ (astarRelax g ε t cu st nb).2.2, ReachableW g s x.2) := by
      unfold astarRelax
      split
      · refine ⟨?_, ?_⟩
        · intro v hv
          by_cases hvnb : v = nb
          · exact hvnb ▸ hnb
          · refine hp v ?_
            simpa [updF, hvnb] using hv
        · intro x hx
          rcases (mem_heapPush _ _ _).mp hx with hx | hx
          · exact hq x hx
          · rw [hx]; exact hnb
      · exact ⟨hp, hq⟩
    exact ih (fun f hf => hsub f (List.mem_cons_of_mem nb hf)) _ hstep.1 hstep.2

theorem astar_loop_reach (g : RoadGraph) (ε : ℝ) (s t : ℕ) :
    ∀ (fuel : ℕ) (os : List (WithTop ℝ × ℕ)) (gsc : ℕ → WithTop ℝ)
      (prev : ℕ → Option ℕ) (visited : List ℕ) (res),
      (∀ v, prev v ≠ none → ReachableW g s v) →
      (∀ x ∈ os, ReachableW g s x.2) →
      astarLoop g ε t fuel os gsc prev visited = some res →
      ∀ v, res.2.1 v ≠ none → ReachableW g s v := by
  intro fuel
  induction fuel with
  | zero => intro os gsc prev visited res _ _ h; exact absurd h (by simp [astarLoop])
  | succ fuel ih =>
    intro os gsc prev visited res hp hq hloop
    match os, hloop with
    | [], hloop =>
      have : res = (gsc, prev, visited) := by
        simpa [astarLoop, heapPop] using hloop.symm
      rw [this]
      exact hp
    | (cf, cu) :: rest, hloop =>
      rw [astarLoop] at hloop
      simp only [heapPop] at hloop
      by_cases hvis : cu ∈ visited
      · rw [if_pos hvis] at hloop
        exact ih rest gsc prev visited res hp
          (fun x hx => hq x (List.mem_cons_of_mem _ hx)) hloop
      · rw [if_neg hvis] at hloop
        have hcu : ReachableW g s cu := hq (cf, cu) (List.mem_cons_self _ _)
        by_cases hct : cu = t
        · rw [if_pos hct] at hloop
          have : res = (gsc, prev, cu :: visited) := by simpa using hloop.symm
          rw [this]
          exact hp
        · rw [if_neg hct] at hloop
          obtain ⟨hp', hq'⟩ := astar_fold_reach g ε s t cu hcu
            (successors g cu) (fun nb hnb => hnb) (gsc, prev, rest) hp
            (fun x hx => hq x (List.mem_cons_of_mem _ hx))
          exact ih _ _ _ _ res hp' hq' hloop

/-- C2 amended: `run(g, n, n)` returns path `[n]`, distance 0 and
`nodes_visited = 1` for Dijkstra, A* and Weighted A* (both execution
modes), with no traversal performed; Bellman-Ford has no same-node
shortcut: it runs its relaxation rounds and returns `nodes_visited` equal
to the number of rounds executed (at most node_count - 1, e.g. 0 on a
one-node graph), with path `[n]`, distance 0 and the measured time, for
nonnegative edge weights. -/
theorem c2_amended :
    (∀ (g : RoadGraph) (n : ℕ), dijkstraRun g n n = some ([n], 0, 1)) ∧
      (∀ (g : RoadGraph) (ε : ℝ) (n : ℕ) (τ : ℝ),
        astarRun g ε n n τ = some ([n], 0, 1, 0)) ∧
      (∀ (g : RoadGraph) (ε : ℝ) (n : ℕ) (τ : ℝ),
        astarRunAnimated g ε n n τ = some ([n], 0, 1, 0)) ∧
      (∀ (g : RoadGraph) (n : ℕ) (τ : ℚ), WF g → n ∈ g.nodes →
        (∀ e ∈ g.edges, (0 : WithTop ℚ) ≤ ew e.length) →
        ∃ k ≤ g.nodes.length - 1, bellmanFordRun g n n τ = BFResult.ok [n] 0 k τ) := by
  refine ⟨fun g n => by simp [dijkstraRun], fun g ε n τ => by simp [astarRun],
    fun g ε n τ => by simp [astarRunAnimated], ?_⟩
  intro g n τ hwf hn hnn
  have hchk := bf_check_false_of_nonneg g n hwf hn hnn
  obtain ⟨h0, hds, hps⟩ := bf_final_nn g n hnn
  refine ⟨(bfRounds g.edges (g.nodes.length - 1) (bfInit n)).2,
    (bfRounds_spec g.edges (g.nodes.length - 1) (bfInit n)).2.1, ?_⟩
  have hrec : bfRecon (bfRounds g.edges (g.nodes.length - 1) (bfInit n)).1.p
      (g.nodes.length + 2) n [] = some [n] := by
    show bfRecon (bfRounds g.edges (g.nodes.length - 1) (bfInit n)).1.p
      (g.nodes.length + 1 + 1) n [] = some [n]
    exact bfRecon_base _ n hps (g.nodes.length + 1)
  simp only [bellmanFordRun, hchk, Bool.false_eq_true, if_false, hds, hrec]
  rw [if_neg (fun hcontra => WithTop.zero_ne_top hcontra)]

/-- Witness for C2 amended: same-node runs on the one-node graph. -/
theorem c2_amended_witness :
    dijkstraRun gOne 7 7 = some ([7], 0, 1) ∧
      astarRun gOne 1 7 7 0 = some ([7], 0, 1, 0) ∧
      astarRunAnimated gOne 1 7 7 0 = some ([7], 0, 1, 0) ∧
      (WF gOne ∧ 7 ∈ gOne.nodes ∧ ∀ e ∈ gOne.edges, (0 : WithTop ℚ) ≤ ew e.length) ∧
      (∃ k ≤ gOne.nodes.length - 1, bellmanFordRun gOne 7 7 3 = BFResult.ok [7] 0 k 3) :=
  ⟨c2_amended.1 gOne 7, c2_amended.2.1 gOne 1 7 0, c2_amended.2.2.1 gOne 1 7 0,
    ⟨by decide, by decide, by decide⟩,
    c2_amended.2.2.2 gOne 7 3 (by decide) (by decide) (by decide)⟩

end WorldCar

namespace WorldCar

/-- C3 amended: on an unreachable (source, target) pair, Dijkstra and A*
return the structured no-path value — empty path, distance +infinity,
the count of nodes explored before exhaustion, and the measured elapsed
time — without raising; Bellman-Ford also returns the structured no-path
value without raising (for nonnegative weights), but its visited count is
its relaxation-round count and its elapsed_time is the literal 0, not the
measured time. -/
theorem c3_amended :
    (∀ (g : RoadGraph) (s t : ℕ) (τ : ℚ) r, ¬ ReachableW g s t →
        dijkstraRunTimed g s t τ = some r →
        r.1 = [] ∧ r.2.1 = ⊤ ∧ r.2.2.2 = τ) ∧
      (∀ (g : RoadGraph) (ε : ℝ) (s t : ℕ) (τ : ℝ) r, ¬ ReachableW g s t →
        astarRun g ε s t τ = some r →
        r.1 = [] ∧ r.2.1 = ⊤ ∧ r.2.2.2 = τ) ∧
      (∀ (g : RoadGraph) (s t : ℕ) (τ : ℚ), WF g → s ∈ g.nodes →
        ¬ ReachableW g s t → (∀ e ∈ g.edges, (0 : WithTop ℚ) ≤ ew e.length) →
        ∃ k ≤ g.nodes.length - 1, bellmanFordRun g s t τ = BFResult.ok [] ⊤ k 0) := by
  refine ⟨?_, ?_, ?_⟩
  · intro g s t τ r hnr hrun
    have hst : s ≠ t := fun h => hnr (h ▸ reach_refl g s)
    simp only [dijkstraRunTimed, dijkstraRun, if_neg hst] at hrun
    cases hloop : dijkstraLoop g t (g.edges.length + 2) [((0 : WithTop ℚ), s)]
        (updF (fun _ => (⊤ : WithTop ℚ)) s 0) (fun _ => none) [] with
    | none => rw [hloop] at hrun; simp at hrun
    | some res =>
      obtain ⟨dist, prev, visited⟩ := res
      rw [hloop] at hrun
      have hreach := dijkstra_loop_reach g s t (g.edges.length + 2)
        [((0 : WithTop ℚ), s)] (updF (fun _ => (⊤ : WithTop ℚ)) s 0)
        (fun _ => none) [] (dist, prev, visited)
        (by
          intro v hv
          have hvs : v = s := by
            by_contra hne
            simp [updF, hne] at hv
          rw [hvs]
          exact reach_refl g s)
        (by
          intro x hx
          have hxs : x = ((0 : WithTop ℚ), s) := by simpa using hx
          rw [hxs]
          exact reach_refl g s)
        hloop
      have hdt : dist t = ⊤ := by
        by_contra h
        exact hnr (hreach t h)
      dsimp only at hrun
      rw [if_pos hdt] at hrun
      simp only [Option.map_some'] at hrun
      obtain rfl := (Option.some.inj hrun).symm
      exact ⟨rfl, rfl, rfl⟩
  · intro g ε s t τ r hnr hrun
    have hst : s ≠ t := fun h => hnr (h ▸ reach_refl g s)
    simp only [astarRun, if_neg hst] at hrun
    cases hloop : astarLoop g ε t (g.edges.length + 2) [((0 : WithTop ℝ), s)]
        (updF (fun _ => (⊤ : WithTop ℝ)) s 0) (fun _ => none) [] with
    | none => rw [hloop] at hrun; simp at hrun
    | some res =>
      obtain ⟨gsc, prev, visited⟩ := res
      rw [hloop] at hrun
      have hreach := astar_loop_reach g ε s t (g.edges.length + 2)
        [((0 : WithTop ℝ), s)] (updF (fun _ => (⊤ : WithTop ℝ)) s 0)
        (fun _ => none) [] (gsc, prev, visited)
        (fun v hv => absurd rfl hv)
        (by
          intro x hx
          have hxs : x = ((0 : WithTop ℝ), s) := by simpa using hx
          rw [hxs]
          exact reach_refl g s)
        hloop
      have hpt : prev t = none := by
        by_contra h
        exact hnr (hreach t h)
      dsimp only at hrun
      rw [hpt] at hrun
      simp only [Option.isNone_none, if_pos] at hrun
      obtain rfl := (Option.some.inj hrun).symm
      exact ⟨rfl, rfl, rfl⟩
  · intro g s t τ hwf hs hnr hnn
    have hchk := bf_check_false_of_nonneg g s hwf hs hnn
    have hdt := bf_final_top_of_unreachable g s t hnr
    refine ⟨(bfRounds g.edges (g.nodes.length - 1) (bfInit s)).2,
      (bfRounds_spec g.edges (g.nodes.length - 1) (bfInit s)).2.1, ?_⟩
    simp only [bellmanFordRun, hchk, Bool.false_eq_true, if_false, hdt,
      eq_self_iff_true, if_true]

/-- Witness for C3 amended: the two-isolated-node graph. -/
theorem c3_amended_witness :
    (¬ ReachableW gTwo 1 2) ∧
      dijkstraRunTimed gTwo 1 2 5 = some ([], ⊤, 1, 5) ∧
      astarRun gTwo 1 1 2 5 = some ([], ⊤, 1, 5) ∧
      (∃ k ≤ gTwo.nodes.length - 1,
        bellmanFordRun gTwo 1 2 5 = BFResult.ok [] ⊤ k 0) := by
  have hnr : ¬ ReachableW gTwo 1 2 := by
    rintro ⟨es, hw⟩
    cases es with
    | nil => exact absurd (show (1 : ℕ) = 2 from hw) (by decide)
    | cons e es => exact absurd hw.1 (by simp [gTwo])
  refine ⟨hnr, ?_, ?_,
    c3_amended.2.2 gTwo 1 2 5 (by decide) (by decide) hnr (by decide)⟩
  · decide
  · simp [astarRun, astarLoop, heapPop, heapPush, successors, dedupFirst,
      dedupFirstAux, gTwo, updF, astarRecon]

end WorldCar

namespace WorldCar

/-!  ## has_path correctness -/

theorem subset_reachStep (g : RoadGraph) (fr : List ℕ) (x : ℕ) (hx : x ∈ fr) :
    x ∈ reachStep g fr := by
  rw [reachStep, mem_dedupFirst]
  exact List.mem_append_left _ hx

theorem mem_reachStep (g : RoadGraph) (fr : List ℕ) (x : ℕ) :
    x ∈ reachStep g fr ↔ x ∈ fr ∨ ∃ u ∈ fr, x ∈ successors g u := by
  rw [reachStep, mem_dedupFirst, List.mem_append, List.mem_flatMap]

theorem reachSet_mono_succ (g : RoadGraph) (a : ℕ) (k : ℕ) (x : ℕ)
    (hx : x ∈ reachSet g a k) : x ∈ reachSet g a (k + 1) :=
  subset_reachStep g _ x hx

theorem reachSet_mono (g : RoadGraph) (a : ℕ) :
    ∀ (j k : ℕ), j ≤ k → ∀ x ∈ reachSet g a j, x ∈ reachSet g a k := by
  intro j k hjk
  induction k with
  | zero =>
    intro x hx
    have : j = 0 := Nat.le_zero.mp hjk
    rw [← this]
    exact hx
  | succ k ih =>
    intro x hx
    by_cases hj : j = k + 1
    · rw [← hj]; exact hx
    · exact reachSet_mono_succ g a k x (ih (by omega) x hx)

theorem reachSet_sound (g : RoadGraph) (a : ℕ) :
    ∀ (k : ℕ) (x : ℕ), x ∈ reachSet g a k → ReachableW g a x := by
  intro k
  induction k with
  | zero =>
    intro x hx
    have : x = a := by simpa [reachSet] using hx
    rw [this]
    exact reach_refl g a
  | succ k ih =>
    intro x hx
    rcases (mem_reachStep g _ x).mp hx with hx | ⟨u, hu, hsu⟩
    · exact ih x hx
    · exact reach_extend g a u x (ih u hu) hsu

theorem reachSet_complete (g : RoadGraph) (a : ℕ) :
    ∀ (es : List REdge) (a' b : ℕ) (k : ℕ), a' ∈ reachSet g a k →
      IsWalk g a' es b → b ∈ reachSet g a (k + es.length) := by
  intro es
  induction es with
  | nil =>
    intro a' b k hk hw
    cases hw
    exact hk
  | cons e es ih =>
    intro a' b k hk hw
    obtain ⟨he, hsrc, hw'⟩ := hw
    have hdst : e.dst ∈ reachSet g a (k + 1) := by
      rw [show reachSet g a (k + 1) = reachStep g (reachSet g a k) from rfl,
        mem_reachStep]
      refine Or.inr ⟨a', hk, ?_⟩
      exact (succ_mem_iff g a' e.dst).mpr ⟨e, he, hsrc, rfl⟩
    have := ih e.dst b (k + 1) hdst hw'
    rw [show k + 1 + es.length = k + (e :: es).length by simp; omega] at this
    exact this

/-- C9: `has_path(graph, a, b)` returns a boolean that is true exactly when
`b` is reachable from `a` within the graph, and never raises — when either
node is missing from the graph it returns false (the `NodeNotFound` raised
by `networkx.has_path` is caught and converted to `False`). -/
theorem c9_has_path_iff (g : RoadGraph) (a b : ℕ) (hwf : WF g) :
    hasPath g a b = true ↔ a ∈ g.nodes ∧ b ∈ g.nodes ∧ ReachableW g a b := by
  rw [hasPath]
  simp only [Bool.and_eq_true, decide_eq_true_eq]
  constructor
  · rintro ⟨⟨ha, hb⟩, hr⟩
    exact ⟨ha, hb, reachSet_sound g a g.nodes.length b hr⟩
  · rintro ⟨ha, hb, es, hw⟩
    refine ⟨⟨ha, hb⟩, ?_⟩
    obtain ⟨es', hw', hlen⟩ :=
      shorten_walk_len g hwf a ha es.length es b (le_refl _) hw
    have hb' : b ∈ reachSet g a (0 + es'.length) :=
      reachSet_complete g a es' a b 0 (by simp [reachSet]) hw'
    refine reachSet_mono g a (0 + es'.length) g.nodes.length ?_ b hb'
    have : 0 < g.nodes.length := List.length_pos_of_mem ha
    omega

/-- Witness for C9 on the two-node graph with the edge 5 → 6. -/
theorem c9_has_path_iff_witness :
    WF gCon ∧ (hasPath gCon 5 6 = true ↔
      5 ∈ gCon.nodes ∧ 6 ∈ gCon.nodes ∧ ReachableW gCon 5 6) ∧
      hasPath gCon 5 6 = true := by
  refine ⟨by decide, c9_has_path_iff gCon 5 6 (by decide), ?_⟩
  refine (c9_has_path_iff gCon 5 6 (by decide)).mpr
    ⟨by decide, by decide, ⟨[⟨5, 6, some 4⟩], ?_⟩⟩
  exact ⟨by simp [gCon], rfl, rfl⟩

end WorldCar

namespace WorldCar

theorem atan2R_zero_one : atan2R 0 1 = 0 := by
  rw [atan2R, if_pos (by norm_num : (0:ℝ) < 1)]
  norm_num [Real.arctan_zero]

theorem heuristicR_gAst (a b : ℕ) : heuristicR gAst a b = 0 := by
  simp only [heuristicR, gAst]
  norm_num [radiansR, Real.sin_zero, Real.cos_zero, Real.sqrt_zero, Real.sqrt_one,
    atan2R_zero_one]

theorem gAst_edges : gAst.edges =
    [⟨1, 2, some 2⟩, ⟨1, 3, some 3⟩, ⟨2, 4, some 10⟩, ⟨3, 2, some (-2)⟩] := rfl

theorem gAst_nodes : gAst.nodes = [1, 2, 3, 4] := rfl

theorem wtr_ofNat_lt_top (n : ℕ) [n.AtLeastTwo] :
    (no_index (OfNat.ofNat n) : WithTop ℝ) < ⊤ := by
  rw [← WithTop.coe_ofNat]; exact WithTop.coe_lt_top _

theorem wtr_one_lt_top : (1 : WithTop ℝ) < ⊤ := by
  rw [← WithTop.coe_one]; exact WithTop.coe_lt_top _

theorem wtr_ofNat_ne_top (n : ℕ) [n.AtLeastTwo] :
    (no_index (OfNat.ofNat n) : WithTop ℝ) ≠ ⊤ := by
  rw [← WithTop.coe_ofNat]; exact WithTop.coe_ne_top

theorem wtr_ofNat_lt_ofNat (n m : ℕ) [n.AtLeastTwo] [m.AtLeastTwo] :
    ((no_index (OfNat.ofNat n) : WithTop ℝ) < no_index (OfNat.ofNat m)) ↔
      ((OfNat.ofNat n : ℝ) < OfNat.ofNat m) := by
  rw [← WithTop.coe_ofNat, ← WithTop.coe_ofNat, WithTop.coe_lt_coe]

theorem wtr_ofNat_eq_ofNat (n m : ℕ) [n.AtLeastTwo] [m.AtLeastTwo] :
    ((no_index (OfNat.ofNat n) : WithTop ℝ) = no_index (OfNat.ofNat m)) ↔
      ((OfNat.ofNat n : ℝ) = OfNat.ofNat m) := by
  rw [← WithTop.coe_ofNat, ← WithTop.coe_ofNat, WithTop.coe_eq_coe]

theorem wtr_one_lt_ofNat (m : ℕ) [m.AtLeastTwo] :
    ((1 : WithTop ℝ) < no_index (OfNat.ofNat m)) ↔ ((1 : ℝ) < OfNat.ofNat m) := by
  rw [← WithTop.coe_one, ← WithTop.coe_ofNat, WithTop.coe_lt_coe]

theorem wtr_ofNat_lt_one (m : ℕ) [m.AtLeastTwo] :
    ((no_index (OfNat.ofNat m) : WithTop ℝ) < 1) ↔ ((OfNat.ofNat m : ℝ) < 1) := by
  rw [← WithTop.coe_one, ← WithTop.coe_ofNat, WithTop.coe_lt_coe]

theorem wtr_one_eq_ofNat (m : ℕ) [m.AtLeastTwo] :
    ((1 : WithTop ℝ) = no_index (OfNat.ofNat m)) ↔ ((1 : ℝ) = OfNat.ofNat m) := by
  rw [← WithTop.coe_one, ← WithTop.coe_ofNat, WithTop.coe_eq_coe]

theorem wtr_ofNat_add_ofNat (n m : ℕ) [n.AtLeastTwo] [m.AtLeastTwo] :
    (no_index (OfNat.ofNat n) : WithTop ℝ) + no_index (OfNat.ofNat m) =
      (((OfNat.ofNat n : ℝ) + (OfNat.ofNat m : ℝ) : ℝ) : WithTop ℝ) := by
  rw [← WithTop.coe_ofNat, ← WithTop.coe_ofNat, ← WithTop.coe_add]

theorem wtr_ofNat_add_coe (n : ℕ) [n.AtLeastTwo] (x : ℝ) :
    (no_index (OfNat.ofNat n) : WithTop ℝ) + (x : WithTop ℝ) =
      (((OfNat.ofNat n : ℝ) + x : ℝ) : WithTop ℝ) := by
  rw [← WithTop.coe_ofNat, ← WithTop.coe_add]

theorem wtr_coe_lt_ofNat (x : ℝ) (m : ℕ) [m.AtLeastTwo] :
    ((x : WithTop ℝ) < no_index (OfNat.ofNat m)) ↔ (x < OfNat.ofNat m) := by
  rw [← WithTop.coe_ofNat, WithTop.coe_lt_coe]

theorem wtr_ofNat_lt_coe (x : ℝ) (m : ℕ) [m.AtLeastTwo] :
    ((no_index (OfNat.ofNat m) : WithTop ℝ) < (x : WithTop ℝ)) ↔
      ((OfNat.ofNat m : ℝ) < x) := by
  rw [← WithTop.coe_ofNat, WithTop.coe_lt_coe]

theorem wtr_coe_eq_ofNat (x : ℝ) (m : ℕ) [m.AtLeastTwo] :
    ((x : WithTop ℝ) = no_index (OfNat.ofNat m)) ↔ (x = OfNat.ofNat m) := by
  rw [← WithTop.coe_ofNat, WithTop.coe_eq_coe]

theorem wtr_map_ofNat (n : ℕ) [n.AtLeastTwo] :
    WithTop.map (fun (q : ℚ) => (q : ℝ)) (no_index (OfNat.ofNat n) : WithTop ℚ) =
      (((OfNat.ofNat n : ℚ) : ℝ) : WithTop ℝ) := by
  rw [← WithTop.coe_ofNat, WithTop.map_coe]

theorem wtr_map_neg_ofNat (n : ℕ) [n.AtLeastTwo] :
    WithTop.map (fun (q : ℚ) => (q : ℝ)) (-(no_index (OfNat.ofNat n) : WithTop ℚ)) =
      ((-(OfNat.ofNat n : ℝ) : ℝ) : WithTop ℝ) := by
  rw [← WithTop.coe_ofNat, ← WithTop.LinearOrderedAddCommGroup.coe_neg, WithTop.map_coe]
  norm_num

theorem wtr_ofNat_add_neg_ofNat (n m : ℕ) [n.AtLeastTwo] [m.AtLeastTwo] :
    (no_index (OfNat.ofNat n) : WithTop ℝ) + -(no_index (OfNat.ofNat m) : WithTop ℝ) =
      (((OfNat.ofNat n : ℝ) + -(OfNat.ofNat m : ℝ) : ℝ) : WithTop ℝ) := by
  rw [← WithTop.coe_ofNat (n := n), ← WithTop.coe_ofNat (n := m), ← WithTop.LinearOrderedAddCommGroup.coe_neg,
    ← WithTop.coe_add]

theorem astarRun_gAst_eval :
    astarRun gAst 1 1 4 0 = some ([1, 3, 2, 4], ((12 : ℝ) : WithTop ℝ), 4, 0) := by
  norm_num [astarRun, astarLoop, astarRelax, astarRecon, heapPush, heapPop, pairLt,
    successors, dedupFirst, dedupFirstAux, astarWeight, astarQWeight, parallelLengths,
    ew, updF, gAst_edges, gAst_nodes, heuristicR_gAst, WithTop.map_coe, wtr_map_ofNat,
    wtr_ofNat_lt_top, wtr_one_lt_top, wtr_ofNat_ne_top, wtr_ofNat_lt_ofNat,
    wtr_ofNat_eq_ofNat, wtr_one_lt_ofNat, wtr_ofNat_lt_one, wtr_one_eq_ofNat,
    wtr_ofNat_add_ofNat, wtr_ofNat_add_coe, wtr_coe_lt_ofNat, wtr_ofNat_lt_coe,
    wtr_coe_eq_ofNat, WithTop.coe_lt_top, wtr_map_neg_ofNat, wtr_ofNat_add_neg_ofNat]

end WorldCar

namespace WorldCar

theorem astarRunAnimated_gAst_eval :
    astarRunAnimated gAst 1 1 4 0 = some ([1, 2, 4], ((12 : ℝ) : WithTop ℝ), 4, 0) := by
  norm_num [astarRunAnimated, astarLoopAnim, astarRelaxAnim, astarRecon, heapPush,
    heapPop, pairLt, successors, dedupFirst, dedupFirstAux, astarWeight, astarQWeight,
    parallelLengths, ew, updF, gAst_edges, gAst_nodes, heuristicR_gAst, WithTop.map_coe,
    wtr_map_ofNat, wtr_ofNat_lt_top, wtr_one_lt_top, wtr_ofNat_ne_top,
    wtr_ofNat_lt_ofNat, wtr_ofNat_eq_ofNat, wtr_one_lt_ofNat, wtr_ofNat_lt_one,
    wtr_one_eq_ofNat, wtr_ofNat_add_ofNat, wtr_ofNat_add_coe, wtr_coe_lt_ofNat,
    wtr_ofNat_lt_coe, wtr_coe_eq_ofNat, WithTop.coe_lt_top, wtr_map_neg_ofNat,
    wtr_ofNat_add_neg_ofNat]

end WorldCar

namespace WorldCar

/-- C7 (code bug): A* `run` and `run_animated`, driven to completion on the
same inputs, can return different final paths.  `run`'s neighbor loop has
no `if neighbor in visited: continue` guard (astar.py lines 83-102), while
`run_animated`'s does (lines 255-257); with a negative-length edge the
extra relaxation in `run` rewrites `previous` for an already-visited node,
changing the reconstructed path.  On `gAst` (all nodes at one position, so
the heuristic is 0; `heuristic_weight = 1`), `run(1, 4)` returns the path
[1, 3, 2, 4] while `run_animated(1, 4)` returns [1, 2, 4] — contradicting
run_animated's own docstring "Final return: ... - same as run()". -/
theorem c7_stepwise_divergence :
    astarRun gAst 1 1 4 0 = some ([1, 3, 2, 4], ((12 : ℝ) : WithTop ℝ), 4, 0) ∧
      astarRunAnimated gAst 1 1 4 0 = some ([1, 2, 4], ((12 : ℝ) : WithTop ℝ), 4, 0) ∧
      ([1, 3, 2, 4] : List ℕ) ≠ [1, 2, 4] :=
  ⟨astarRun_gAst_eval, astarRunAnimated_gAst_eval, by decide⟩

end WorldCar

namespace WorldCar

theorem atan2R_le_pi_div_two (y x : ℝ) (hx : 0 ≤ x) : atan2R y x ≤ Real.pi / 2 := by
  rw [atan2R]
  split
  · exact le_of_lt (Real.arctan_lt_pi_div_two _)
  · rw [if_neg (not_lt.mpr hx)]
    split
    · exact le_refl _
    · split
      · linarith [Real.pi_pos]
      · linarith [Real.pi_pos]

theorem atan2R_pos_eq (y x : ℝ) (hx : 0 < x) : atan2R y x = Real.arctan (y / x) := by
  rw [atan2R, if_pos hx]

theorem havCore_strictMono (a b : ℝ) (ha : 0 ≤ a) (hab : a < b) (hb : b < 1) :
    atan2R (Real.sqrt a) (Real.sqrt (1 - a)) <
      atan2R (Real.sqrt b) (Real.sqrt (1 - b)) := by
  have h1a : 0 < 1 - a := by linarith
  have h1b : 0 < 1 - b := by linarith
  rw [atan2R_pos_eq _ _ (Real.sqrt_pos.mpr h1a),
    atan2R_pos_eq _ _ (Real.sqrt_pos.mpr h1b)]
  apply Real.arctan_strictMono
  have hsb : 0 < Real.sqrt b := Real.sqrt_pos.mpr (lt_of_le_of_lt ha hab)
  have hden : Real.sqrt (1 - b) < Real.sqrt (1 - a) :=
    Real.sqrt_lt_sqrt (le_of_lt h1b) (by linarith)
  calc Real.sqrt a / Real.sqrt (1 - a)
      ≤ Real.sqrt b / Real.sqrt (1 - a) :=
        (div_le_div_iff_of_pos_right (Real.sqrt_pos.mpr h1a)).mpr (Real.sqrt_le_sqrt hab.le)
    _ < Real.sqrt b / Real.sqrt (1 - b) :=
        div_lt_div_of_pos_left hsb (Real.sqrt_pos.mpr h1b) hden

theorem haversine_le_R_pi (lat1 lon1 lat2 lon2 : ℝ) :
    haversine_distance lat1 lon1 lat2 lon2 ≤ 6371000 * Real.pi := by
  simp only [haversine_distance]
  have h := atan2R_le_pi_div_two
    (Real.sqrt (Real.sin (radiansR (lat2 - lat1) / 2) ^ 2 +
      Real.cos (radiansR lat1) * Real.cos (radiansR lat2) *
        Real.sin (radiansR (lon2 - lon1) / 2) ^ 2))
    (Real.sqrt (1 - (Real.sin (radiansR (lat2 - lat1) / 2) ^ 2 +
      Real.cos (radiansR lat1) * Real.cos (radiansR lat2) *
        Real.sin (radiansR (lon2 - lon1) / 2) ^ 2)))
    (Real.sqrt_nonneg _)
  nlinarith [h]

end WorldCar

namespace WorldCar

theorem hav_80_79 : haversine_distance 80 0 79 0 =
    6371000 * (2 * atan2R (Real.sqrt (Real.sin (Real.pi / 360) ^ 2))
      (Real.sqrt (1 - Real.sin (Real.pi / 360) ^ 2))) := by
  have h1 : radiansR ((79 : ℝ) - 80) / 2 = -(Real.pi / 360) := by rw [radiansR]; ring
  have h2 : radiansR ((0 : ℝ) - 0) / 2 = 0 := by rw [radiansR]; ring
  simp only [haversine_distance]
  rw [h1, h2, Real.sin_neg, Real.sin_zero]
  norm_num

theorem hav_80_15 : haversine_distance 80 0 80 (3 / 2) =
    6371000 * (2 * atan2R
      (Real.sqrt (Real.cos (4 * Real.pi / 9) * Real.cos (4 * Real.pi / 9) *
        Real.sin (Real.pi / 240) ^ 2))
      (Real.sqrt (1 - Real.cos (4 * Real.pi / 9) * Real.cos (4 * Real.pi / 9) *
        Real.sin (Real.pi / 240) ^ 2))) := by
  have h1 : radiansR ((80 : ℝ) - 80) / 2 = 0 := by rw [radiansR]; ring
  have h2 : radiansR ((3 / 2 : ℝ) - 0) / 2 = Real.pi / 240 := by rw [radiansR]; ring
  have h3 : radiansR (80 : ℝ) = 4 * Real.pi / 9 := by rw [radiansR]; ring
  simp only [haversine_distance]
  rw [h1, h2, h3, Real.sin_zero]
  norm_num

theorem c6_key_ineq :
    Real.cos (4 * Real.pi / 9) * Real.cos (4 * Real.pi / 9) *
      Real.sin (Real.pi / 240) ^ 2 < Real.sin (Real.pi / 360) ^ 2 := by
  have hpi := Real.pi_pos
  have hpi4 := Real.pi_le_four
  have hpi3 := Real.pi_gt_three
  have hc_lt : Real.cos (4 * Real.pi / 9) < 1 / 2 := by
    have h := Real.cos_lt_cos_of_nonneg_of_le_pi
      (show (0:ℝ) ≤ Real.pi / 3 by linarith)
      (show 4 * Real.pi / 9 ≤ Real.pi by linarith)
      (show Real.pi / 3 < 4 * Real.pi / 9 by linarith)
    rw [Real.cos_pi_div_three] at h
    exact h
  have hc_nonneg : 0 ≤ Real.cos (4 * Real.pi / 9) := by
    apply Real.cos_nonneg_of_mem_Icc
    constructor <;> [linarith; linarith]
  have hs240_pos : 0 < Real.sin (Real.pi / 240) :=
    Real.sin_pos_of_pos_of_lt_pi (by linarith) (by linarith)
  have hs240_lt : Real.sin (Real.pi / 240) < Real.pi / 240 := Real.sin_lt (by linarith)
  have hs360_gt : Real.pi / 360 - (Real.pi / 360) ^ 3 / 4 < Real.sin (Real.pi / 360) :=
    Real.sin_gt_sub_cube (by linarith) (by nlinarith)
  have key1 : Real.cos (4 * Real.pi / 9) * Real.sin (Real.pi / 240) <
      Real.pi / 480 := by
    calc Real.cos (4 * Real.pi / 9) * Real.sin (Real.pi / 240)
        < (1 / 2) * Real.sin (Real.pi / 240) :=
          mul_lt_mul_of_pos_right hc_lt hs240_pos
      _ < (1 / 2) * (Real.pi / 240) :=
          mul_lt_mul_of_pos_left hs240_lt (by norm_num)
      _ = Real.pi / 480 := by ring
  have key2 : Real.pi / 480 < Real.sin (Real.pi / 360) := by
    refine lt_of_le_of_lt ?_ hs360_gt
    nlinarith [pow_pos hpi 3, sq_nonneg Real.pi]
  have hmul_nonneg : 0 ≤ Real.cos (4 * Real.pi / 9) * Real.sin (Real.pi / 240) :=
    mul_nonneg hc_nonneg hs240_pos.le
  have hsq : (Real.cos (4 * Real.pi / 9) * Real.sin (Real.pi / 240)) ^ 2 <
      Real.sin (Real.pi / 360) ^ 2 :=
    pow_lt_pow_left₀ (key1.trans key2) hmul_nonneg (by norm_num)
  nlinarith [hsq]

theorem c6_a1_lt_one : Real.sin (Real.pi / 360) ^ 2 < 1 := by
  have hpi4 := Real.pi_le_four
  have hpi := Real.pi_pos
  have h1 : Real.sin (Real.pi / 360) < 1 := by
    have := Real.sin_lt (show (0:ℝ) < Real.pi / 360 by linarith)
    linarith
  have h0 : 0 ≤ Real.sin (Real.pi / 360) :=
    Real.sin_nonneg_of_nonneg_of_le_pi (by linarith) (by linarith)
  exact pow_lt_one₀ h0 h1 (by norm_num)

theorem c6_haversine_compare :
    haversine_distance 80 0 80 (3 / 2) < haversine_distance 80 0 79 0 := by
  rw [hav_80_79, hav_80_15]
  have hmono := havCore_strictMono
    (Real.cos (4 * Real.pi / 9) * Real.cos (4 * Real.pi / 9) *
      Real.sin (Real.pi / 240) ^ 2)
    (Real.sin (Real.pi / 360) ^ 2)
    (mul_nonneg (mul_nonneg (by
      apply Real.cos_nonneg_of_mem_Icc
      constructor <;> [nlinarith [Real.pi_pos]; nlinarith [Real.pi_pos]]) (by
      apply Real.cos_nonneg_of_mem_Icc
      constructor <;> [nlinarith [Real.pi_pos]; nlinarith [Real.pi_pos]])) (sq_nonneg _))
    c6_key_ineq c6_a1_lt_one
  linarith [hmono]

theorem hav_79_le_bound : haversine_distance 80 0 79 0 ≤ 1000000000 := by
  calc haversine_distance 80 0 79 0 ≤ 6371000 * Real.pi :=
      haversine_le_R_pi 80 0 79 0
    _ ≤ 6371000 * 4 := by nlinarith [Real.pi_le_four]
    _ ≤ 1000000000 := by norm_num

end WorldCar

namespace WorldCar

theorem argminAux_spec (q : ℚ × ℚ) (L : List (ℚ × ℚ)) (cs : List (ℚ × ℚ)) :
    ∀ (i bi : ℕ) (bd : ℚ), L.drop i = cs →
    (∃ b, L.get? bi = some b ∧ planarSq q b = bd) →
    (∀ c ∈ L, c ∈ cs ∨ bd ≤ planarSq q c) →
    ∃ b, L.get? (argminAux q cs i bi bd) = some b ∧
      ∀ c ∈ L, planarSq q b ≤ planarSq q c := by
  induction cs with
  | nil =>
    intro i bi bd _ hbi hprev
    obtain ⟨b, hb, hval⟩ := hbi
    refine ⟨b, hb, ?_⟩
    intro c hc
    rcases hprev c hc with h | h
    · exact absurd h (List.not_mem_nil c)
    · rw [hval]; exact h
  | cons c cs ih =>
    intro i bi bd hdrop hbi hprev
    have hgetc : L.get? i = some c := by
      rw [List.get?_eq_getElem?]
      have h0 : (L.drop i)[0]? = some c := by rw [hdrop]; simp
      rwa [List.getElem?_drop, Nat.add_zero] at h0
    have hdrop' : L.drop (i + 1) = cs := by
      have : (L.drop i).drop 1 = L.drop (i + 1) := by
        rw [List.drop_drop, Nat.add_comm]
      rw [← this, hdrop]; rfl
    rw [argminAux]
    by_cases hlt : planarSq q c < bd
    · rw [if_pos hlt]
      apply ih (i + 1) i (planarSq q c) hdrop' ⟨c, hgetc, rfl⟩
      intro c2 hc2
      rcases hprev c2 hc2 with h | h
      · rcases List.mem_cons.mp h with h' | h'
        · right; rw [h']
        · left; exact h'
      · right; exact le_of_lt (lt_of_lt_of_le hlt h)
    · rw [if_neg hlt]
      apply ih (i + 1) bi bd hdrop' hbi
      intro c2 hc2
      rcases hprev c2 hc2 with h | h
      · rcases List.mem_cons.mp h with h' | h'
        · right; rw [h']; exact le_of_not_lt hlt
        · left; exact h'
      · right; exact h

theorem argminIdx_min (q : ℚ × ℚ) (L : List (ℚ × ℚ)) (hL : L ≠ []) :
    ∃ b, L.get? (argminIdx q L) = some b ∧
      ∀ c ∈ L, planarSq q b ≤ planarSq q c := by
  match L with
  | [] => exact absurd rfl hL
  | c :: rest =>
    rw [argminIdx]
    apply argminAux_spec q (c :: rest) rest 1 0 (planarSq q c) rfl ⟨c, rfl, rfl⟩
    intro c2 hc2
    rcases List.mem_cons.mp hc2 with h | h
    · right; rw [h]
    · left; exact h

/-- C6 (amended): for a valid query, `find_nearest_node` returns the node
selected by the KD-tree's PLANAR (raw coordinate-space) nearest-neighbor
query — the candidate minimizing squared planar distance over the stored
coordinates — and the accept/reject against `max_distance` uses the
haversine distance of that planar-chosen candidate. -/
theorem c6_amended (g : RoadGraph) (lat lon maxd : ℚ) (c : ℚ × ℚ) (nid : ℕ)
    (hval : validate_coordinates lat lon = true)
    (hc : (nodeCoords g).get? (argminIdx (lat, lon) (nodeCoords g)) = some c)
    (hn : g.nodes.get? (argminIdx (lat, lon) (nodeCoords g)) = some nid) :
    (∀ c2 ∈ nodeCoords g, planarSq (lat, lon) c ≤ planarSq (lat, lon) c2) ∧
    findNearestNode g lat lon maxd =
      (if haversine_distance (lat : ℝ) (lon : ℝ) ((c.1 : ℚ) : ℝ) ((c.2 : ℚ) : ℝ)
          > ((maxd : ℚ) : ℝ) then none else some nid) := by
  constructor
  · have hne : nodeCoords g ≠ [] := by
      intro h
      rw [h] at hc
      exact Option.noConfusion ((List.get?_nil (n := argminIdx (lat, lon) [])) ▸ hc)
    obtain ⟨b, hb, hmin⟩ := argminIdx_min (lat, lon) (nodeCoords g) hne
    rw [hc] at hb
    injection hb with hb
    subst hb
    exact hmin
  · rw [findNearestNode, hval]
    rw [if_neg (by simp)]
    rw [hc, hn]

theorem findNearest_gHL_eval :
    findNearestNode gHL 80 0 1000000000 = some 1 := by
  have hb : ¬ (haversine_distance (80 : ℝ) 0 79 0 > (1000000000 : ℝ)) :=
    not_lt.mpr hav_79_le_bound
  norm_num [findNearestNode, validate_coordinates, nodeCoords, gHL, argminIdx,
    argminAux, planarSq, hb]

end WorldCar

namespace WorldCar

theorem c6_amended_witness :
    (∀ c2 ∈ nodeCoords gHL,
      planarSq ((80 : ℚ), (0 : ℚ)) ((79 : ℚ), (0 : ℚ)) ≤
        planarSq ((80 : ℚ), (0 : ℚ)) c2) ∧
    findNearestNode gHL 80 0 1000000000 =
      (if haversine_distance ((80 : ℚ) : ℝ) ((0 : ℚ) : ℝ)
          ((((79 : ℚ), (0 : ℚ)).1 : ℚ) : ℝ) ((((79 : ℚ), (0 : ℚ)).2 : ℚ) : ℝ)
          > (((1000000000 : ℚ) : ℚ) : ℝ) then none else some 1) :=
  c6_amended gHL 80 0 1000000000 ((79 : ℚ), (0 : ℚ)) 1 (by decide)
    (by norm_num [nodeCoords, gHL, argminIdx, argminAux, planarSq])
    (by norm_num [nodeCoords, gHL, argminIdx, argminAux, planarSq])

/-- C6 counterexample: on `gHL` (node 1 at lat 79, lon 0; node 2 at lat 80,
lon 1.5), the valid query (lat 80, lon 0) with a huge `max_distance` returns
node 1 — the planar-nearest node — even though node 2 is strictly nearer in
haversine (great-circle) distance, contradicting the claim that the returned
node minimizes the haversine distance. -/
theorem c6_counterexample :
    findNearestNode gHL 80 0 1000000000 = some 1 ∧
    gHL.nodes = [1, 2] ∧
    ((gHL.y 2 : ℚ) : ℝ) = 80 ∧ ((gHL.x 2 : ℚ) : ℝ) = 3 / 2 ∧
    ((gHL.y 1 : ℚ) : ℝ) = 79 ∧ ((gHL.x 1 : ℚ) : ℝ) = 0 ∧
    haversine_distance 80 0 ((gHL.y 2 : ℚ) : ℝ) ((gHL.x 2 : ℚ) : ℝ) <
      haversine_distance 80 0 ((gHL.y 1 : ℚ) : ℝ) ((gHL.x 1 : ℚ) : ℝ) := by
  refine ⟨findNearest_gHL_eval, rfl, ?_, ?_, ?_, ?_, ?_⟩
  · norm_num [gHL]
  · norm_num [gHL]
  · norm_num [gHL]
  · norm_num [gHL]
  · have h2 : ((gHL.y 2 : ℚ) : ℝ) = 80 := by norm_num [gHL]
    have h2x : ((gHL.x 2 : ℚ) : ℝ) = 3 / 2 := by norm_num [gHL]
    have h1 : ((gHL.y 1 : ℚ) : ℝ) = 79 := by norm_num [gHL]
    have h1x : ((gHL.x 1 : ℚ) : ℝ) = 0 := by norm_num [gHL]
    rw [h2, h2x, h1, h1x]
    exact c6_haversine_compare

end WorldCar
